import Mathlib

/-
Verification of src/lang/lang-check.py: a shallow embedding of its escape
decoder (unescape), its use of textwrap.TextWrapper with default options,
its per-record checker, and the frame-processing loop of parse_txt,
together with theorems settling the frozen claims about the script.
-/

set_option maxRecDepth 8000

namespace LangCheck

/-! ## Character classes and small Python string helpers -/

/-- The six characters of textwrap's own whitespace string
    (tab, newline, vertical tab, form feed, carriage return, space).
    textwrap builds both its whitespace-to-space translation table and the
    whitespace character class of wordsep_re from exactly this string, so
    this class is the faithful one for munging and chunk splitting. It is
    strictly smaller than the set str.strip() strips, which is pyIsSpace
    below. -/
def isWsChar (c : Char) : Bool :=
  c = ' ' || c = '\t' || c = '\n' || c = '\x0b' || c = '\x0c' || c = '\r'

/-- Python str.isspace, the set str.strip() with no argument strips: the
    ASCII characters 0x9-0xd, 0x1c-0x1f and space, next-line, no-break
    space, ogham space mark, the en-quad..hair-space range, the line and
    paragraph separators, narrow no-break space, medium mathematical space
    and ideographic space. Every isWsChar character is here, but not
    conversely (0x1c-0x1f already differ inside ASCII). -/
def pyIsSpace (c : Char) : Bool :=
  (0x9 ≤ c.toNat && c.toNat ≤ 0xd) || (0x1c ≤ c.toNat && c.toNat ≤ 0x20) ||
  c.toNat = 0x85 || c.toNat = 0xa0 || c.toNat = 0x1680 ||
  (0x2000 ≤ c.toNat && c.toNat ≤ 0x200a) ||
  c.toNat = 0x2028 || c.toNat = 0x2029 || c.toNat = 0x202f ||
  c.toNat = 0x205f || c.toNat = 0x3000

/-- Python regex word-character class; the regex class is Unicode-wide,
    the ASCII range is modelled. -/
def isWordChar (c : Char) : Bool := c.isAlphanum || c = '_'

/-- The textwrap letter class: a word character that is not a digit; same
    ASCII-range modelling as isWordChar. -/
def isLetterChar (c : Char) : Bool := c.isAlpha || c = '_'

/-- The textwrap word_punct class: word character, or one of
    exclamation mark, double quote, single quote, ampersand, period,
    comma, question mark. -/
def isWordPunct (c : Char) : Bool :=
  isWordChar c || c = '!' || c = Char.ofNat 34 || c = Char.ofNat 39 ||
    c = '&' || c = '.' || c = ',' || c = '?'

/-- Python str.strip() with no argument: drops leading and trailing
    characters of the full str.isspace set. -/
def pyStrip (l : List Char) : List Char :=
  ((l.dropWhile pyIsSpace).reverse.dropWhile pyIsSpace).reverse

/-- Python str.strip with a double-quote argument, as used on the raw source
    and translation lines: removes all leading and trailing double quotes. -/
def stripQuotes (l : List Char) : List Char :=
  ((l.dropWhile (fun c => c = Char.ofNat 34)).reverse.dropWhile
      (fun c => c = Char.ofNat 34)).reverse

/-- Python str.split(sep) for a one-character separator: splits at every
    occurrence and keeps empty pieces; the result is always nonempty. -/
def pySplitChar (sep : Char) : List Char → List (List Char)
  | [] => [[]]
  | c :: t =>
    if c = sep then [] :: pySplitChar sep t
    else
      match pySplitChar sep t with
      | [] => [[c]]
      | p :: ps => (c :: p) :: ps

/-- Digits of a decimal literal. -/
def pyIntDigits (l : List Char) : Option Nat :=
  if l.isEmpty then none
  else if l.all Char.isDigit then
    some (l.foldl (fun a c => a * 10 + (c.toNat - 48)) 0)
  else none

/-- Python int(): modelled for trimmed decimal literals with an optional
    sign. Python additionally accepts surrounding whitespace and interior
    underscores; no directive value in this development uses those. -/
def pyInt (s : String) : Option Int :=
  match s.data with
  | '-' :: t => (pyIntDigits t).map (fun n => -(n : Int))
  | '+' :: t => (pyIntDigits t).map (fun n => (n : Int))
  | l => (pyIntDigits l).map (fun n => (n : Int))

/-- Count of percent characters, Python str.count for a single character. -/
def countPct (s : String) : Nat := s.data.count '%'

/-- True when every character is in the ASCII range accepted by
    str.encode(ascii). -/
def allAscii (l : List Char) : Bool := l.all (fun c => c.toNat ≤ 127)

/-! ## The Python exceptions the script can raise -/

/-- Exception classes observable from lang-check.py; messages are not
    modelled. nameError stands for the UnboundLocalError (a NameError
    subclass) raised when a local variable is read before assignment. -/
inductive PyExc where
  | nameError
  | typeError
  | valueError
  | runtimeError
  | unicodeEncodeError
  | unicodeDecodeError
  | indexError
deriving Repr, DecidableEq

/-! ## The escape decoder (source lines 64-67)

unescape(text) returns text unchanged when it has no backslash; otherwise it
runs text.encode(ascii).decode(unicode_escape). -/

def isOctDigit (c : Char) : Bool := '0' ≤ c && c ≤ '7'

def octVal (c : Char) : Nat := c.toNat - 48

def isHexDigit (c : Char) : Bool :=
  c.isDigit || ('a' ≤ c && c ≤ 'f') || ('A' ≤ c && c ≤ 'F')

def hexVal (c : Char) : Nat :=
  if c.isDigit then c.toNat - 48
  else if 'a' ≤ c && c ≤ 'f' then c.toNat - 87
  else c.toNat - 55

/-- A scalar value representable as a Lean Char (not a surrogate, at most
    0x10FFFF). -/
def validChar (n : Nat) : Bool := n < 0xd800 || (0xdfff < n && n ≤ 0x10FFFF)

/-- One escape sequence after a backslash, following CPython
    PyUnicode_DecodeUnicodeEscape on ASCII input: single-character escapes,
    a skipped backslash-newline continuation, up to three octal digits,
    backslash-x with exactly two hex digits, backslash-u with four,
    backslash-U with eight. An unrecognised escape keeps the backslash and
    the following character; a malformed hex escape is a
    UnicodeDecodeError; a backslash-U value above 0x10FFFF is a
    UnicodeDecodeError. A lone surrogate from backslash-u or backslash-U is
    a legal Python str character but has no Lean Char, and backslash-N
    named escapes need the Unicode name database: both are mapped to an
    error here and excluded from the scope of every theorem below via the
    wfEsc predicate. -/
inductive EscStep where
  | skip (t : List Char)
  | emit (ch : Char) (t : List Char)
  | keep (e : Char) (t : List Char)
  | bad (exc : PyExc)
deriving Repr, DecidableEq

def escStep (e : Char) (t : List Char) : EscStep :=
  if e = '\n' then .skip t
  else if e = '\\' then .emit '\\' t
  else if e = Char.ofNat 39 then .emit (Char.ofNat 39) t
  else if e = Char.ofNat 34 then .emit (Char.ofNat 34) t
  else if e = 'b' then .emit '\x08' t
  else if e = 'f' then .emit '\x0c' t
  else if e = 't' then .emit '\t' t
  else if e = 'n' then .emit '\n' t
  else if e = 'r' then .emit '\r' t
  else if e = 'v' then .emit '\x0b' t
  else if e = 'a' then .emit '\x07' t
  else if isOctDigit e then
    match t with
    | d2 :: t2 =>
      if isOctDigit d2 then
        match t2 with
        | d3 :: t3 =>
          if isOctDigit d3 then
            .emit (Char.ofNat (octVal e * 64 + octVal d2 * 8 + octVal d3)) t3
          else .emit (Char.ofNat (octVal e * 8 + octVal d2)) t2
        | [] => .emit (Char.ofNat (octVal e * 8 + octVal d2)) t2
      else .emit (Char.ofNat (octVal e)) t
    | [] => .emit (Char.ofNat (octVal e)) t
  else if e = 'x' then
    match t with
    | h1 :: h2 :: t2 =>
      if isHexDigit h1 && isHexDigit h2 then
        .emit (Char.ofNat (hexVal h1 * 16 + hexVal h2)) t2
      else .bad .unicodeDecodeError
    | _ => .bad .unicodeDecodeError
  else if e = 'u' then
    match t with
    | h1 :: h2 :: h3 :: h4 :: t2 =>
      if isHexDigit h1 && isHexDigit h2 && isHexDigit h3 && isHexDigit h4 then
        let n := ((hexVal h1 * 16 + hexVal h2) * 16 + hexVal h3) * 16 + hexVal h4
        if validChar n then .emit (Char.ofNat n) t2
        else .bad .valueError
      else .bad .unicodeDecodeError
    | _ => .bad .unicodeDecodeError
  else if e = 'U' then
    match t with
    | h1 :: h2 :: h3 :: h4 :: h5 :: h6 :: h7 :: h8 :: t2 =>
      if isHexDigit h1 && isHexDigit h2 && isHexDigit h3 && isHexDigit h4 &&
          isHexDigit h5 && isHexDigit h6 && isHexDigit h7 && isHexDigit h8 then
        let n := ((((((hexVal h1 * 16 + hexVal h2) * 16 + hexVal h3) * 16 +
          hexVal h4) * 16 + hexVal h5) * 16 + hexVal h6) * 16 + hexVal h7) * 16 +
          hexVal h8
        if 0x10FFFF < n then .bad .unicodeDecodeError
        else if validChar n then .emit (Char.ofNat n) t2
        else .bad .valueError
      else .bad .unicodeDecodeError
    | _ => .bad .unicodeDecodeError
  else if e = 'N' then .bad .valueError
  else .keep e t

/-- Decoding with the unicode_escape codec: a non-backslash character is
    copied; a trailing lone backslash raises UnicodeDecodeError; otherwise
    one escape step runs and decoding continues. Every step consumes at
    least one character, so a fuel equal to the input length always
    suffices. -/
def uEscF : Nat → List Char → Except PyExc (List Char)
  | _, [] => .ok []
  | 0, _ :: _ => .ok []
  | fuel + 1, c :: rest =>
    if c = '\\' then
      match rest with
      | [] => .error .unicodeDecodeError
      | e :: t =>
        match escStep e t with
        | .skip t2 => uEscF fuel t2
        | .emit ch t2 => (uEscF fuel t2).map (fun l => ch :: l)
        | .keep e2 t2 => (uEscF fuel t2).map (fun l => '\\' :: e2 :: l)
        | .bad exc => .error exc
    else (uEscF fuel rest).map (fun l => c :: l)


def uEsc (l : List Char) : Except PyExc (List Char) := uEscF l.length l

/-- unescape, source lines 64-67: the no-backslash fast path returns the
    input unchanged; otherwise encode(ascii) raises UnicodeEncodeError on any
    character above 127, and the ASCII bytes are decoded with
    unicode_escape. -/
def unescape (s : String) : Except PyExc String :=
  if ¬ s.data.contains '\\' then .ok s
  else if allAscii s.data then (uEsc s.data).map (fun l => String.mk l)
  else .error .unicodeEncodeError

/-! ## The textwrap model (default TextWrapper options, as on source
    lines 128-131)

Defaults used by the script: expand_tabs, replace_whitespace,
drop_whitespace, break_long_words, break_on_hyphens all true;
no indents, no max_lines, tabsize 8. -/

/-- str.expandtabs(8): each tab becomes spaces up to the next multiple of 8
    columns; newline and carriage return reset the column counter. Only the
    column modulo 8 matters. -/
def expandTabsGo : Nat → List Char → List Char
  | _, [] => []
  | col, c :: t =>
    if c = '\t' then List.replicate (8 - col % 8) ' ' ++ expandTabsGo 0 t
    else if c = '\n' || c = '\r' then c :: expandTabsGo 0 t
    else c :: expandTabsGo (col + 1) t

/-- textwrap _munge_whitespace with default options: expand tabs, then map
    every whitespace-class character to a space. -/
def munge (l : List Char) : List Char :=
  (expandTabsGo 0 l).map (fun c => if isWsChar c then ' ' else c)

/-- Lookbehind of the hyphenated-word break of wordsep_re, checked just
    after the hyphen: the two characters before it are letters, or they are
    a hyphen preceded by a letter, preceded by a letter. The argument is the
    reversed text before the hyphen. -/
def hyphBehind (left : List Char) : Bool :=
  (match left with
   | y :: x :: _ => isLetterChar y && isLetterChar x
   | _ => false) ||
  (match left with
   | c1 :: c2 :: c3 :: _ => isLetterChar c1 && c2 = '-' && isLetterChar c3
   | _ => false)

/-- Lookahead of the hyphenated-word break: a letter, an optional hyphen,
    then a letter. -/
def hyphAhead : List Char → Bool
  | a :: '-' :: b :: _ => isLetterChar a && isLetterChar b
  | a :: b :: _ => isLetterChar a && isLetterChar b
  | _ => false

/-- Lookahead of the em-dash break of wordsep_re: a maximal run of two or
    more hyphens followed by a word character (inside the regex lookahead
    the greedy hyphen run must be the whole run, since a hyphen is not a
    word character). -/
def emAhead (l : List Char) : Bool :=
  let run := l.takeWhile (fun c => c = '-')
  2 ≤ run.length &&
    (match l.drop run.length with
     | w :: _ => isWordChar w
     | [] => false)

/-- True when the previous character exists and is in the word_punct
    class. -/
def prevIsWordPunct (left : List Char) : Bool :=
  match left with
  | p :: _ => isWordPunct p
  | [] => false

/-- The word alternative of wordsep_re: a lazy run of at least one
    non-whitespace character, extended until the first position where one of
    the three break conditions matches, tried in the order of the regex
    alternation: hyphenated-word break (which also consumes the hyphen), end
    of word before whitespace or end of input, or an em-dash run ahead after
    a word_punct character. left is the reversed input before rest, and
    includes the characters consumed so far; chunkRev is the reversed chunk
    consumed so far. A fuel equal to the length of rest always suffices,
    since every step consumes one character of rest. -/
def wordScanGo : Nat → List Char → List Char → List Char → List Char × List Char
  | 0, _, chunkRev, rest => (chunkRev.reverse, rest)
  | fuel + 1, left, chunkRev, rest =>
    match rest with
    | [] => (chunkRev.reverse, [])
    | r :: rs =>
      if r = '-' && hyphBehind left && hyphAhead rs then
        (('-' :: chunkRev).reverse, rs)
      else if isWsChar r then (chunkRev.reverse, rest)
      else if prevIsWordPunct left && emAhead rest then (chunkRev.reverse, rest)
      else wordScanGo fuel (r :: left) (r :: chunkRev) rs

/-- One pass of wordsep_re over the text: successive matches are a maximal
    whitespace run, an em-dash hyphen run after a word_punct character, or a
    word chunk from the word alternative. left is the reversed text already
    consumed (regex lookbehinds may inspect it). The fuel is decremented
    once per chunk; every chunk is nonempty, so length of l plus one always
    suffices. -/
def splitRun : Nat → List Char → List Char → List (List Char)
  | 0, _, _ => []
  | fuel + 1, left, l =>
    match l with
    | [] => []
    | c :: rest =>
      if isWsChar c then
        let run := (c :: rest).takeWhile isWsChar
        run :: splitRun fuel (run.reverse ++ left) ((c :: rest).drop run.length)
      else if prevIsWordPunct left && emAhead (c :: rest) then
        let run := (c :: rest).takeWhile (fun c2 => c2 = '-')
        run :: splitRun fuel (run.reverse ++ left) ((c :: rest).drop run.length)
      else
        let p := wordScanGo rest.length (c :: left) [c] rest
        p.1 :: splitRun fuel (p.1.reverse ++ left) p.2

/-- textwrap _split on already munged text. -/
def splitChunks (l : List Char) : List (List Char) :=
  splitRun (l.length + 1) [] l

/-- True when every character of the chunk is in textwrap's six-character
    whitespace class. This classifies the homogeneous chunks of wordsep_re
    (a chunk is a whitespace run or contains no such character); it is not
    the strip test of _wrap_chunks, which is stripEmpty below. -/
def allWs (l : List Char) : Bool := l.all isWsChar

/-- The Python test chunk.strip() == an empty string used by the two
    whitespace-dropping steps of _wrap_chunks: every character is in the
    full str.isspace set (vacuously true for the empty chunk, as in
    Python). Coarser than allWs: a chunk of 0x1c-0x1f characters, say, is
    a word chunk for the splitter yet strips to empty. -/
def stripEmpty (l : List Char) : Bool := l.all pyIsSpace

/-- Total length of a chunk list. -/
def sumLen (cs : List (List Char)) : Nat := (cs.map List.length).sum

/-- The inner greedy loop of _wrap_chunks: take successive chunks while the
    accumulated length stays within the width. -/
def greedyTake (w : Nat) : Nat → List (List Char) → List (List Char) × List (List Char)
  | _, [] => ([], [])
  | acc, c :: t =>
    if acc + c.length ≤ w then
      let p := greedyTake w (acc + c.length) t
      (c :: p.1, p.2)
    else ([], c :: t)

/-- Index of the last hyphen of a chunk, Python str.rfind. -/
def rfindHyph : List Char → Option Nat
  | [] => none
  | c :: t =>
    match rfindHyph t with
    | some i => some (i + 1)
    | none => if c = '-' then some 0 else none

/-- textwrap _handle_long_word with break_long_words and break_on_hyphens
    true: cut the head chunk at the space left on the current line, or just
    after the last hyphen before that point when the hyphen has a
    non-hyphen character before it; the cut piece joins the current line and
    the remainder stays as the next chunk. curLen is the current line
    length, which the caller keeps at most w, so the natural subtraction
    agrees with Python. -/
def handleLong (w curLen : Nat) (taken : List (List Char)) (ch : List Char)
    (rest : List (List Char)) : List (List Char) × List (List Char) :=
  let spaceLeft := if w < 1 then 1 else w - curLen
  let endIdx :=
    if spaceLeft < ch.length then
      match rfindHyph (ch.take spaceLeft) with
      | some hy =>
        if 0 < hy && (ch.take hy).any (fun c => c ≠ '-') then hy + 1 else spaceLeft
      | none => spaceLeft
    else spaceLeft
  (taken ++ [ch.take endIdx], ch.drop endIdx :: rest)

/-- The body of one iteration of the outer loop of _wrap_chunks (default
    options, empty indents, no max_lines), after the leading-whitespace
    drop: fill the current line greedily, break a chunk longer than the
    width, drop a trailing whitespace piece, and emit the line when
    nonempty. Returns the updated reversed line accumulator and the
    remaining chunks. -/
def wrapIter (w : Nat) (lines : List (List Char)) (cs : List (List Char)) :
    List (List Char) × List (List Char) :=
  match cs with
  | [] => (lines, [])
  | _ :: _ =>
    let g := greedyTake w 0 cs
    let p :=
      match g.2 with
      | ch :: r2 => if w < ch.length then handleLong w (sumLen g.1) g.1 ch r2 else (g.1, g.2)
      | [] => (g.1, [])
    let cur :=
      match p.1.getLast? with
      | some lastC => if stripEmpty lastC then p.1.dropLast else p.1
      | none => p.1
    ((if cur.isEmpty then lines else cur.flatten :: lines), p.2)

def wrapGo (w : Nat) : Nat → List (List Char) → List (List Char) → List (List Char)
  | 0, lines, _ => lines.reverse
  | _ + 1, lines, [] => lines.reverse
  | fuel + 1, lines, c0 :: rest0 =>
    let s := wrapIter w lines (if !lines.isEmpty && stripEmpty c0 then rest0 else c0 :: rest0)
    wrapGo w fuel s.1 s.2

/-- textwrap wrap on a character list: munge, split, fill. -/
def pyWrapCore (w : Nat) (l : List Char) : List (List Char) :=
  let cs := splitChunks (munge l)
  wrapGo w (sumLen cs + cs.length + 1) [] cs

/-- textwrap.TextWrapper(width=w).wrap(s) with default options, for w at
    least 1. Python raises ValueError for width 0; the parser model below
    errors before ever calling wrap in that case, so no theorem applies this
    function at width 0. -/
def pyWrap (w : Nat) (s : String) : List String :=
  (pyWrapCore w s.data).map (fun l => String.mk l)

/-! ## Diagnostics and the per-record checker (source lines 106-181) -/

/-- The diagnostics the script can print, identified by kind; their message
    text, line numbers and rendered payload blocks are not modelled, the
    order and severity of emission are. -/
inductive Diag where
  | wNoDisplay
  | wMultiRows
  | wSourceOverflow
  | eOverflow
  | ePlaceholder
  | wPunctFirst
  | wPunctLast
  | wShort
deriving Repr, DecidableEq

inductive Severity where
  | warning
  | error
deriving Repr, DecidableEq

/-- Severity of each diagnostic: the bracket-E messages of the source are
    errors, the bracket-W messages are warnings. -/
def severity : Diag → Severity
  | .eOverflow => .error
  | .ePlaceholder => .error
  | _ => .warning

/-- A parsed record as the loop body holds it just before the checks:
    decoded source and translation, the rows value (an int in Python) and
    the columns value, which is at least 1 whenever a record is produced
    (width 0 or None would have raised inside TextWrapper first). The
    wrapped forms are recomputed from these fields where needed, as
    textwrap wrapping is pure. -/
structure LangRecord where
  source : String
  translation : String
  rows : Int
  cols : Nat
deriving Repr, DecidableEq

/-- source[0] and translation[0] ignorable-class test (ign_char_first,
    source lines 69-70). Python isalnum is Unicode-wide; ASCII range
    modelled. -/
def ignCharFirst (c : Char) : Bool := c.isAlphanum || c = '%' || c = '?'

/-- Last-character ignorable-class test (ign_char_last, source lines
    72-73). Python isalnum is Unicode-wide; ASCII range modelled. -/
def ignCharLast (c : Char) : Bool := c.isAlphanum || c = '.' || c = Char.ofNat 39

/-- Source-overflow warning, source lines 135-143: an if branch for single
    row geometry and an elif branch for wrapped rows; both print a
    bracket-W message. -/
def srcOverflowDiags (noWarning : Bool) (r : LangRecord) : List Diag :=
  if noWarning then []
  else if r.rows = 1 ∧ (r.source.length > r.cols ∨
      ((pyWrap r.cols r.source).length : Int) > r.rows) then [.wSourceOverflow]
  else if ((pyWrap r.cols r.source).length : Int) > r.rows then [.wSourceOverflow]
  else []

/-- Translation overflow error, source lines 146-151. -/
def overflowDiags (r : LangRecord) : List Diag :=
  if ((pyWrap r.cols r.translation).length : Int) > r.rows ∨
      (r.rows = 1 ∧ r.translation.length > r.cols) then [.eOverflow]
  else []

/-- Placeholder-count error, source lines 154-158. -/
def placeholderDiags (r : LangRecord) : List Diag :=
  if countPct r.source ≠ countPct r.translation ∧ 0 < r.translation.length then
    [.ePlaceholder]
  else []

/-- Punctuation-drift check, source lines 161-173. The two stripped-last
    characters are computed first, source before translation; indexing an
    empty stripped string raises IndexError there. When either string is
    empty the whole check is skipped. -/
def punctCheck (noWarning : Bool) (r : LangRecord) : Except PyExc (List Diag) :=
  if noWarning then .ok []
  else
    match r.source.data, r.translation.data with
    | s0 :: srest, t0 :: trest =>
      match (pyStrip (s0 :: srest)).getLast? with
      | none => .error .indexError
      | some se =>
        match (pyStrip (t0 :: trest)).getLast? with
        | none => .error .indexError
        | some te =>
          let startDiff := !(ignCharFirst s0 && ignCharFirst t0) && !(s0 == t0)
          let endDiff := !(ignCharLast se && ignCharLast te) && !(se == te)
          .ok ((if startDiff then [Diag.wPunctFirst] else []) ++
            (if endDiff then [Diag.wPunctLast] else []))
    | _, _ => .ok []

/-- Short-translation warning, source lines 176-181. Python compares
    len(strip of translation) against len(strip of source) divided by two
    with real division; for integers that holds exactly when twice the
    first is below the second. -/
def shortDiags (noWarning : Bool) (r : LangRecord) : List Diag :=
  if noWarning then []
  else if 0 < r.source.length ∧ 0 < r.translation.length ∧
      2 * (pyStrip r.translation.data).length < (pyStrip r.source.data).length then
    [.wShort]
  else []

/-- The per-record checks in source order, lines 134-181: source-overflow
    warning, translation overflow error, placeholder-count error, the
    punctuation check (which can raise IndexError), then the
    short-translation warning. The diagnostic list holds what was printed
    before any exception. -/
def checkRecord (noWarning : Bool) (r : LangRecord) : List Diag × Option PyExc :=
  let d123 := srcOverflowDiags noWarning r ++ overflowDiags r ++ placeholderDiags r
  match punctCheck noWarning r with
  | .error e => (d123, some e)
  | .ok d4 => (d123 ++ d4 ++ shortDiags noWarning r, none)

/-! ## Frame parsing (source lines 86-131) and the main loop -/

/-- One 4-line frame of the input file: the key=value tokens of the
    directive line after the label (comment[1:] of the split on single
    spaces), and the raw source and translation line contents after the
    trailing newline was cut by the [:-1] slice. -/
structure Frame where
  tokens : List String
  rawSource : String
  rawTranslation : String
deriving Repr, DecidableEq

/-- The tuple unpacking key, val = item.split(sep) on an equals sign:
    exactly two pieces, otherwise ValueError. -/
def splitEq (tok : String) : Except PyExc (String × String) :=
  match pySplitChar '=' tok.data with
  | [k, v] => .ok (String.mk k, String.mk v)
  | _ => .error .valueError

/-- The directive token loop, source lines 94-105: key c sets columns, key
    r sets rows, any other key raises RuntimeError; int() on a non-numeric
    value raises ValueError. -/
def processTokens : Option Int → Option Int → List String → Except PyExc (Option Int × Option Int)
  | c, r, [] => .ok (c, r)
  | c, r, tok :: rest =>
    match splitEq tok with
    | .error e => .error e
    | .ok kv =>
      if kv.1 = "c" then
        match pyInt kv.2 with
        | none => .error .valueError
        | some n => processTokens (some n) r rest
      else if kv.1 = "r" then
        match pyInt kv.2 with
        | none => .error .valueError
        | some n => processTokens c (some n) rest
      else .error .runtimeError

/-- The literal four characters backslash x 0 0, the sentinel compared
    against the stripped translation line on source line 119. -/
def emptySentinel : List Char := ['\\', 'x', '0', '0']

/-- Parsing of one frame, source lines 88-131. prevTranslation is the value
    of the translation local variable from the previous iteration; on the
    first frame it is unassigned (none), and reading it on line 109 raises
    UnboundLocalError. When both keys are absent, columns defaults to the
    length of that previous decoded translation; when only r is given,
    columns stays None and TextWrapper(width=None) raises TypeError on line
    128; a columns value at most 0 raises ValueError inside TextWrapper.
    The multiple-rows warning on line 113 is printed even when warnings are
    disabled. Diagnostics are returned in print order next to the outcome. -/
def parseFrame (prevTranslation : Option String) (noWarning : Bool) (f : Frame) :
    List Diag × Except PyExc LangRecord :=
  match processTokens none none f.tokens with
  | .error e => ([], .error e)
  | .ok cr =>
    let dispDefault : List Diag × Except PyExc (Option Int) :=
      match cr.1, cr.2, prevTranslation with
      | none, none, none => ((if noWarning then [] else [Diag.wNoDisplay]), .error .nameError)
      | none, none, some pt =>
        ((if noWarning then [] else [Diag.wNoDisplay]), .ok (some (pt.length : Int)))
      | _, _, _ => ([], .ok cr.1)
    match dispDefault.2 with
    | .error e => (dispDefault.1, .error e)
    | .ok cols1 =>
      let rowsWarn : Int × List Diag :=
        match cr.2 with
        | none => (1, [])
        | some rv => (rv, if 1 < rv ∧ cols1 ≠ some 20 then [Diag.wMultiRows] else [])
      let d := dispDefault.1 ++ rowsWarn.2
      let src1 := String.mk (stripQuotes f.rawSource.data)
      let tr0 := stripQuotes f.rawTranslation.data
      let tr1 := String.mk (if tr0 = emptySentinel then [] else tr0)
      match unescape src1 with
      | .error e => (d, .error e)
      | .ok src2 =>
        match unescape tr1 with
        | .error e => (d, .error e)
        | .ok tr2 =>
          match cols1 with
          | none => (d, .error .typeError)
          | some c =>
            if c ≤ 0 then (d, .error .valueError)
            else (d, .ok ⟨src2, tr2, rowsWarn.1, c.toNat⟩)

/-- Outcome of a run of the frame loop: diagnostics printed in order, the
    exception that ended the run when there is one, and the final value of
    the translation variable. -/
structure RunOut where
  diags : List Diag
  exc : Option PyExc
  lastTranslation : Option String
deriving Repr, DecidableEq

/-- The frame-processing loop of parse_txt. The 4-line framing and the
    blank-separator end-of-file test of lines 183-184 are abstracted into
    the given frame list; the loop threads the translation variable across
    iterations, which is what line 109 reads. -/
def runGo (prevT : Option String) (noWarning : Bool) : List Frame → RunOut
  | [] => ⟨[], none, prevT⟩
  | f :: rest =>
    let p := parseFrame prevT noWarning f
    match p.2 with
    | .error e => ⟨p.1, some e, prevT⟩
    | .ok record =>
      let c := checkRecord noWarning record
      match c.2 with
      | some e => ⟨p.1 ++ c.1, some e, prevT⟩
      | none =>
        let r := runGo (some record.translation) noWarning rest
        ⟨p.1 ++ c.1 ++ r.diags, r.exc, r.lastTranslation⟩

/-- parse_txt on a frame list: the printed diagnostics and the escaping
    exception, if any. -/
def parseTxt (noWarning : Bool) (frames : List Frame) : List Diag × Option PyExc :=
  let r := runGo none noWarning frames
  (r.diags, r.exc)

/-- Exit status of main, source lines 201-208: 0 on normal completion of
    parse_txt; when parse_txt raises, main prints the traceback and calls
    parser.error, and argparse terminates the process with status 2 (the
    return 1 after that call is unreachable). -/
def mainExit (noWarning : Bool) (frames : List Frame) : Nat :=
  match (parseTxt noWarning frames).2 with
  | none => 0
  | some _ => 2

/-! ## Spec-side definitions used to state the claims -/

/-- Maximal non-whitespace runs of a character list, the words of the
    whitespace-normalized string; acc holds the reversed current word. -/
def wordsGo : List Char → List Char → List (List Char)
  | acc, [] => if acc.isEmpty then [] else [acc.reverse]
  | acc, c :: t =>
    if isWsChar c then
      if acc.isEmpty then wordsGo [] t else acc.reverse :: wordsGo [] t
    else wordsGo (c :: acc) t

/-- The words of a character list. -/
def words (l : List Char) : List (List Char) := wordsGo [] l

/-- Rank of each checker diagnostic in the emission order of the source,
    lines 134-181; the two parse-phase warnings never appear in checkRecord
    output and sort before everything. -/
def rank : Diag → Nat
  | .wNoDisplay => 0
  | .wMultiRows => 0
  | .wSourceOverflow => 1
  | .eOverflow => 2
  | .ePlaceholder => 3
  | .wPunctFirst => 4
  | .wPunctLast => 5
  | .wShort => 6

/-- Modelled from the spec: each escape sequence is replaced by its
    corresponding character per the standard escape-step table, and
    characters outside escape sequences are kept. Total: on the malformed
    or unrepresentable inputs that wfEsc rejects it keeps the characters,
    and no theorem depends on its value there. -/
def decodeEscF : Nat → List Char → List Char
  | _, [] => []
  | 0, l => l
  | fuel + 1, c :: rest =>
    if c = '\\' then
      match rest with
      | [] => [c]
      | e :: t =>
        match escStep e t with
        | .skip t2 => decodeEscF fuel t2
        | .emit ch t2 => ch :: decodeEscF fuel t2
        | .keep e2 t2 => '\\' :: e2 :: decodeEscF fuel t2
        | .bad _ => '\\' :: e :: decodeEscF fuel t
    else c :: decodeEscF fuel rest


def decodeEsc (l : List Char) : List Char := decodeEscF l.length l

/-- Well-formedness of the backslash sequences of a string: every
    backslash starts an escape the step table recognises and can represent
    (no truncated or unknown escape, no lone surrogate, no backslash-N, no
    trailing lone backslash). Consumption matches uEscF exactly. -/
def wfEscF : Nat → List Char → Bool
  | _, [] => true
  | 0, _ :: _ => false
  | fuel + 1, c :: rest =>
    if c = '\\' then
      match rest with
      | [] => false
      | e :: t =>
        match escStep e t with
        | .skip t2 => wfEscF fuel t2
        | .emit _ t2 => wfEscF fuel t2
        | .keep _ _ => false
        | .bad _ => false
    else wfEscF fuel rest


def wfEsc (l : List Char) : Bool := wfEscF l.length l

/-- The trailing-whitespace drop of _wrap_chunks, applied to the chunks of
    the current line just before it is emitted: when the last chunk strips
    to the empty string it is removed. This is exactly the cur step inside
    wrapIter, named so that facts about one loop iteration can be
    stated. -/
def dropTrailWs (g1 : List (List Char)) : List (List Char) :=
  match g1.getLast? with
  | some lastC => if stripEmpty lastC then g1.dropLast else g1
  | none => g1

/-- Invariant of the chunk list across iterations of the outer loop of
    _wrap_chunks on hyphen-free text: every chunk is nonempty and
    homogeneous (all whitespace, or no whitespace at all), no two adjacent
    chunks are both non-whitespace, every non-whitespace chunk fits within
    the width, and no character is strip-whitespace without being in
    textwrap's whitespace class, so the strip test and the chunk
    classification agree. -/
def Good (w : Nat) (cs : List (List Char)) : Prop :=
  (∀ ch ∈ cs, ch ≠ [] ∧ (allWs ch = true ∨ ∀ c ∈ ch, isWsChar c = false)) ∧
  List.Chain' (fun a b => allWs a = true ∨ allWs b = true) cs ∧
  (∀ ch ∈ cs, allWs ch = false → ch.length ≤ w) ∧
  (∀ ch ∈ cs, ∀ c ∈ ch, pyIsSpace c = true → isWsChar c = true)

/-! ## Claim theorems: concrete evaluations -/

/-- Claim C1: the claim says a frame whose directive line has neither a c
    nor an r token gets a warning and columns equal to the length of that
    same record's raw translation string, on every frame including the
    first. The code instead reads the translation variable before its first
    assignment: on the first frame the run aborts with an UnboundLocalError
    right after printing the warning, and on a later frame the columns
    default is the length of the previous record's decoded translation.
    Here: a first frame with no display definition crashes the run, and a
    second frame with no display definition after a record whose decoded
    translation was abcde gets columns 5, not the length 2 of its own
    translation xy. -/
theorem c1_no_display_definition_uses_stale_translation :
    runGo none false [⟨[], String.mk ['a'], String.mk ['b']⟩] =
      ⟨[Diag.wNoDisplay], some PyExc.nameError, none⟩ ∧
    parseFrame (some "abcde") false ⟨[], String.mk ['x', 'y'], String.mk ['x', 'y']⟩ =
      ([Diag.wNoDisplay], .ok ⟨"xy", "xy", 1, 5⟩) := by
  constructor
  · rfl
  · rfl

/-- Claim C2: the claim says a no-warning run over a file with only
    warning-class issues prints nothing. The multiple-rows warning of
    source line 113 is outside the not-no-warning guard: a single frame
    with c=19 r=2 prints that warning even with warnings disabled, while
    the run still finishes with no exception and exit status 0. -/
theorem c2_no_warning_still_prints_multirows :
    parseTxt true [⟨["c=19", "r=2"], "\"abc\"", "\"abc\""⟩] = ([Diag.wMultiRows], none) ∧
    severity Diag.wMultiRows = Severity.warning ∧
    mainExit true [⟨["c=19", "r=2"], "\"abc\"", "\"abc\""⟩] = 0 := by
  refine ⟨?_, rfl, ?_⟩
  · rfl
  · rfl

/-- Claim C3 counterexample: a run whose second frame has the unknown
    directive key x=1 terminates through parser.error with exit status 2,
    not 1 as the claim states. -/
theorem c3_unknown_key_exits_with_2 :
    mainExit false [⟨["c=20", "r=1"], "\"ok\"", "\"ok\""⟩, ⟨["x=1"], "\"a\"", "\"b\""⟩] = 2 ∧
    mainExit false [⟨["c=20", "r=1"], "\"ok\"", "\"ok\""⟩, ⟨["x=1"], "\"a\"", "\"b\""⟩] ≠ 1 := by
  exact ⟨rfl, by decide⟩

/-- Claim C4 counterexample: at width 1 the wrapper splits the word ab into
    the fragments a and b, so a break occurs inside a word and the fragment
    words no longer reproduce the words of the whitespace-normalized
    original. -/
theorem c4_wrap_splits_long_word :
    pyWrap 1 "ab" = ["a", "b"] ∧
    ((pyWrapCore 1 ("ab" : String).data).map words).flatten ≠
      words (munge ("ab" : String).data) := by
  exact ⟨rfl, by decide⟩

/-- Claim C5 counterexample: on a record where both the source-overflow
    warning and the translation overflow error fire, the warning is printed
    first (source lines 135-143 run before lines 146-151), while the claim
    states the error comes first. -/
theorem c5_warning_before_error :
    (checkRecord false ⟨"abcd", "efgh", 1, 3⟩).1 = [Diag.wSourceOverflow, Diag.eOverflow] ∧
    severity Diag.wSourceOverflow = Severity.warning ∧
    severity Diag.eOverflow = Severity.error := by
  exact ⟨rfl, rfl, rfl⟩

/-- Claim C6 counterexample: with rows 1 and columns 10, a decoded
    translation of raw length 9 that contains a tab fires the overflow
    error, because the wrapped form expands the tab and spans two lines;
    the claim states the error fires only when the raw length exceeds
    columns. -/
theorem c6_tab_fires_despite_fitting :
    Diag.eOverflow ∈ (checkRecord false ⟨"aaaa", "aaaa\taaaa", 1, 10⟩).1 ∧
    ("aaaa\taaaa" : String).length ≤ 10 := by
  exact ⟨by decide, by decide⟩

/-- Claim C8: the claim says a directive line carrying r but not c is
    accepted and the record is checked without a fatal failure. The
    defaulting on source line 106 covers only the case where both keys are
    absent, so columns stays None and TextWrapper(width=None) raises
    TypeError on line 128 after the multiple-rows warning printed: the run
    aborts and no record is checked. -/
theorem c8_r_without_c_raises_typeerror :
    runGo none false [⟨["r=2"], String.mk ['a'], String.mk ['b']⟩] =
      ⟨[Diag.wMultiRows], some PyExc.typeError, none⟩ := by
  rfl

/-- Claim C9 counterexample: a raw string holding a backslash-n escape
    followed by a non-ASCII character has only well-formed escape
    sequences, yet decode fails with UnicodeEncodeError from the
    encode(ascii) step, against the claim that decoding succeeds regardless
    of what other characters the string contains. -/
theorem c9_nonascii_decode_fails :
    ('\\' ∈ ("\\né" : String).data) ∧ wfEsc ("\\né" : String).data = true ∧
    unescape "\\né" = .error PyExc.unicodeEncodeError := by
  exact ⟨by decide, by decide, rfl⟩

/-- Claim C10: a record whose decoded source is a single space (nonempty)
    and whose decoded translation is nonempty reaches the punctuation-drift
    check with warnings enabled; stripping the source leaves an empty
    string, indexing its last character raises IndexError, and the whole
    run aborts with no diagnostic printed. Shown on a full run over one
    frame with geometry c=20 r=1. -/
theorem c10_whitespace_source_aborts_run :
    parseTxt false [⟨["c=20", "r=1"], "\" \"", "\"a\""⟩] = ([], some PyExc.indexError) ∧
    checkRecord false ⟨" ", "a", 1, 20⟩ = ([], some PyExc.indexError) := by
  exact ⟨rfl, rfl⟩

/-! ## Content of each checker segment -/

theorem mem_srcOverflowDiags {nw : Bool} {r : LangRecord} {d : Diag}
    (h : d ∈ srcOverflowDiags nw r) : d = Diag.wSourceOverflow := by
  unfold srcOverflowDiags at h
  split_ifs at h <;> simp_all

theorem mem_overflowDiags {r : LangRecord} {d : Diag}
    (h : d ∈ overflowDiags r) : d = Diag.eOverflow := by
  unfold overflowDiags at h
  split_ifs at h <;> simp_all

theorem mem_placeholderDiags {r : LangRecord} {d : Diag}
    (h : d ∈ placeholderDiags r) : d = Diag.ePlaceholder := by
  unfold placeholderDiags at h
  split_ifs at h <;> simp_all

theorem mem_shortDiags {nw : Bool} {r : LangRecord} {d : Diag}
    (h : d ∈ shortDiags nw r) : d = Diag.wShort := by
  unfold shortDiags at h
  split_ifs at h <;> simp_all

theorem punctCheck_ok_shape {nw : Bool} {r : LangRecord} {l : List Diag}
    (h : punctCheck nw r = .ok l) :
    l = [] ∨ l = [Diag.wPunctFirst] ∨ l = [Diag.wPunctLast] ∨
      l = [Diag.wPunctFirst, Diag.wPunctLast] := by
  unfold punctCheck at h
  split_ifs at h
  · cases h; simp
  · revert h
    split
    · split
      · intro h; cases h
      · split
        · intro h; cases h
        · intro h
          cases h
          split_ifs <;> simp
    · intro h; cases h; simp

theorem mem_punctOk {nw : Bool} {r : LangRecord} {l : List Diag} {d : Diag}
    (h : punctCheck nw r = .ok l) (hm : d ∈ l) :
    d = Diag.wPunctFirst ∨ d = Diag.wPunctLast := by
  rcases punctCheck_ok_shape h with h1 | h1 | h1 | h1 <;> subst h1 <;> simp_all

theorem placeholder_mem_iff {r : LangRecord} :
    Diag.ePlaceholder ∈ placeholderDiags r ↔
      countPct r.source ≠ countPct r.translation ∧ 0 < r.translation.length := by
  unfold placeholderDiags
  split_ifs with h <;> simp [h]

/-- Claim C7: the placeholder-count error fires exactly when the percent
    counts of the decoded source and decoded translation differ and the
    decoded translation is nonempty, independently of the warnings flag and
    of the other checks (source lines 154-158). -/
theorem c7_placeholder_error_iff (nw : Bool) (r : LangRecord) :
    Diag.ePlaceholder ∈ (checkRecord nw r).1 ↔
      countPct r.source ≠ countPct r.translation ∧ 0 < r.translation.length := by
  have h1 : Diag.ePlaceholder ∉ srcOverflowDiags nw r := fun h => by
    cases mem_srcOverflowDiags h
  have h2 : Diag.ePlaceholder ∉ overflowDiags r := fun h => by
    cases mem_overflowDiags h
  have h5 : Diag.ePlaceholder ∉ shortDiags nw r := fun h => by
    cases mem_shortDiags h
  unfold checkRecord
  cases hp : punctCheck nw r with
  | error e =>
    simpa [List.mem_append, h1, h2, h5] using placeholder_mem_iff
  | ok d4 =>
    have h4 : Diag.ePlaceholder ∉ d4 := fun h => by
      rcases mem_punctOk hp h with h | h <;> cases h
    simpa [List.mem_append, h1, h2, h4, h5] using placeholder_mem_iff

/-! ## Order of checker diagnostics -/

theorem sorted_rank_append {l1 l2 : List Diag}
    (h1 : (l1.map rank).Sorted (· ≤ ·)) (h2 : (l2.map rank).Sorted (· ≤ ·))
    (h : ∀ x ∈ l1, ∀ y ∈ l2, rank x ≤ rank y) :
    (((l1 ++ l2)).map rank).Sorted (· ≤ ·) := by
  rw [List.map_append]
  refine List.pairwise_append.mpr ⟨h1, h2, ?_⟩
  intro a ha b hb
  rcases List.mem_map.mp ha with ⟨x, hx, rfl⟩
  rcases List.mem_map.mp hb with ⟨y, hy, rfl⟩
  exact h x hx y hy

/-- Claim C5 (amended order): for every record and either warnings setting,
    the diagnostic kinds a record check prints appear in the fixed source
    order source-overflow warning, overflow error, placeholder error,
    punctuation-drift warnings, short-translation warning; stated as
    sortedness of the emitted ranks. -/
theorem c5_check_order (nw : Bool) (r : LangRecord) :
    ((checkRecord nw r).1.map rank).Sorted (· ≤ ·) := by
  have ssrc : ((srcOverflowDiags nw r).map rank).Sorted (· ≤ ·) := by
    unfold srcOverflowDiags; split_ifs <;> simp
  have sovf : ((overflowDiags r).map rank).Sorted (· ≤ ·) := by
    unfold overflowDiags; split_ifs <;> simp
  have sph : ((placeholderDiags r).map rank).Sorted (· ≤ ·) := by
    unfold placeholderDiags; split_ifs <;> simp
  have ssh : ((shortDiags nw r).map rank).Sorted (· ≤ ·) := by
    unfold shortDiags; split_ifs <;> simp
  have h123 : ∀ x ∈ srcOverflowDiags nw r ++ overflowDiags r ++ placeholderDiags r,
      rank x ≤ 3 := by
    intro x hx
    rcases List.mem_append.mp hx with h | h
    · rcases List.mem_append.mp h with h | h
      · rw [mem_srcOverflowDiags h]; decide
      · rw [mem_overflowDiags h]; decide
    · rw [mem_placeholderDiags h]; decide
  have s12 : (((srcOverflowDiags nw r ++ overflowDiags r ++ placeholderDiags r)).map rank).Sorted (· ≤ ·) := by
    refine sorted_rank_append ?_ sph ?_
    · refine sorted_rank_append ssrc sovf ?_
      intro x hx y hy
      rw [mem_srcOverflowDiags hx, mem_overflowDiags hy]
      decide
    · intro x hx y hy
      rw [mem_placeholderDiags hy]
      rcases List.mem_append.mp hx with h | h
      · rw [mem_srcOverflowDiags h]; decide
      · rw [mem_overflowDiags h]; decide
  rcases hp : punctCheck nw r with e | d4
  · simpa only [checkRecord, hp] using s12
  · have hd4 : ∀ x ∈ d4, x = Diag.wPunctFirst ∨ x = Diag.wPunctLast := fun x hx =>
      mem_punctOk hp hx
    have sd4 : (d4.map rank).Sorted (· ≤ ·) := by
      rcases punctCheck_ok_shape hp with h | h | h | h <;> subst h <;> decide
    have goal : ((((srcOverflowDiags nw r ++ overflowDiags r ++ placeholderDiags r) ++ d4 ++ shortDiags nw r)).map rank).Sorted (· ≤ ·) := by
      refine sorted_rank_append ?_ ssh ?_
      · refine sorted_rank_append s12 sd4 ?_
        intro x hx y hy
        have hy4 : 4 ≤ rank y := by
          rcases hd4 y hy with h2 | h2 <;> rw [h2] <;> decide
        have := h123 x hx
        omega
      · intro x hx y hy
        rw [mem_shortDiags hy]
        rcases List.mem_append.mp hx with h | h
        · have := h123 x h
          show rank x ≤ 6
          omega
        · rcases hd4 x h with h2 | h2 <;> rw [h2] <;> decide
    simpa only [checkRecord, hp] using goal

/-! ## Composition of the frame loop, and fatal parse failures -/

theorem runGo_append_clean (nw : Bool) (b : List Frame) :
    ∀ (a : List Frame) (st : Option String), (runGo st nw a).exc = none →
      runGo st nw (a ++ b) =
        ⟨(runGo st nw a).diags ++ (runGo (runGo st nw a).lastTranslation nw b).diags,
         (runGo (runGo st nw a).lastTranslation nw b).exc,
         (runGo (runGo st nw a).lastTranslation nw b).lastTranslation⟩ := by
  intro a
  induction a with
  | nil => intro st _; simp [runGo]
  | cons f rest ih =>
    intro st hcl
    rcases hp : (parseFrame st nw f).2 with e | record
    · exfalso
      simp only [runGo, hp] at hcl
      cases hcl
    · rcases hc : (checkRecord nw record).2 with - | e
      · have hcl2 : (runGo (some record.translation) nw rest).exc = none := by
          simpa only [runGo, hp, hc] using hcl
        have := ih (some record.translation) hcl2
        simp only [List.cons_append, runGo, hp, hc, List.append_eq, this, List.append_assoc]
      · exfalso
        simp only [runGo, hp, hc] at hcl
        cases hcl

theorem processTokens_unknown_key (c r : Option Int) (rest : List String) :
    processTokens c r ("x=1" :: rest) = .error .runtimeError := rfl

/-- Claim C3 (amended exit status): an unknown directive key aborts the
    whole run no matter how many earlier frames parsed cleanly, after a
    stack trace and a usage-style message; but the process status is the
    argparse error status 2, not 1, because main reports the failure
    through parser.error, which terminates with status 2 before the
    return 1 is reached. -/
theorem c3_fatal_parse_failure_exits_2 (nw : Bool) (pre post : List Frame)
    (restToks : List String) (rawS rawT : String)
    (h : (runGo none nw pre).exc = none) :
    mainExit nw (pre ++ (⟨"x=1" :: restToks, rawS, rawT⟩ :: post)) = 2 := by
  have hbad :
      runGo (runGo none nw pre).lastTranslation nw (⟨"x=1" :: restToks, rawS, rawT⟩ :: post) =
        ⟨[], some PyExc.runtimeError, (runGo none nw pre).lastTranslation⟩ := by
    simp only [runGo, parseFrame, processTokens_unknown_key]
  unfold mainExit parseTxt
  rw [runGo_append_clean nw _ pre none h, hbad]

/-- Witness for the amended C3 theorem: one clean frame, then a frame whose
    directive carries x=1. -/
theorem c3_fatal_parse_failure_exits_2_witness :
    mainExit false ([⟨["c=20", "r=1"], "\"ok\"", "\"ok\""⟩] ++
      (⟨"x=1" :: [], "\"a\"", "\"b\""⟩ :: [])) = 2 :=
  c3_fatal_parse_failure_exits_2 false [⟨["c=20", "r=1"], "\"ok\"", "\"ok\""⟩] [] [] "\"a\"" "\"b\"" (by rfl)

/-! ## The escape decoder on well-formed input -/

theorem validChar_le (n : Nat) (h : validChar n = true) : ¬ 0x10FFFF < n := by
  simp only [validChar, Bool.or_eq_true, Bool.and_eq_true, decide_eq_true_eq] at h
  omega

theorem uEscF_wf_eq : ∀ fuel l, wfEscF fuel l = true →
    uEscF fuel l = .ok (decodeEscF fuel l) := by
  intro fuel
  induction fuel with
  | zero =>
    intro l hwf
    rcases l with - | ⟨c, rest⟩
    · rfl
    · cases hwf
  | succ fuel ih =>
    intro l hwf
    rcases l with - | ⟨c, rest⟩
    · rfl
    · by_cases hc : c = '\\'
      · subst hc
        rcases rest with - | ⟨e, t⟩
        · rw [show wfEscF (fuel + 1) ['\\'] = false from rfl] at hwf
          cases hwf
        · simp only [uEscF, decodeEscF, wfEscF, if_pos] at hwf ⊢
          revert hwf
          rcases escStep e t with t2 | ⟨ch, t2⟩ | ⟨e2, t2⟩ | exc
          · intro hwf
            exact ih t2 hwf
          · intro hwf
            show (uEscF fuel t2).map (fun l => ch :: l) = .ok (ch :: decodeEscF fuel t2)
            rw [ih t2 hwf]
            rfl
          · intro hwf
            simp at hwf
          · intro hwf
            simp at hwf
      · simp only [uEscF, decodeEscF, wfEscF, if_neg hc] at hwf ⊢
        rw [ih rest hwf]
        rfl

theorem decodeEscF_no_backslash : ∀ fuel l, '\\' ∉ l → decodeEscF fuel l = l := by
  intro fuel
  induction fuel with
  | zero =>
    intro l _
    cases l <;> rfl
  | succ fuel ih =>
    intro l h
    rcases l with - | ⟨c, rest⟩
    · rfl
    · have hc : ¬ c = '\\' := fun hcc => h (by simp [hcc])
      simp only [decodeEscF, if_neg hc]
      rw [ih rest (fun hm => h (List.mem_cons_of_mem c hm))]

theorem contains_backslash_iff (l : List Char) : l.contains '\\' = true ↔ '\\' ∈ l := by
  simp [List.contains_eq_any_beq]

/-- Claim C9 (amended success condition): decode is the identity on strings
    without a backslash; on an all-ASCII string whose backslash sequences
    are all well-formed standard escape sequences, decode succeeds and
    replaces each escape by its corresponding character. The claim's
    stronger version, success regardless of the other characters, fails:
    encode(ascii) rejects any character above 127 first. -/
theorem c9_decode_wellformed (s : String) :
    ('\\' ∉ s.data → unescape s = .ok s) ∧
    (allAscii s.data = true → wfEsc s.data = true →
      unescape s = .ok (String.mk (decodeEsc s.data))) := by
  constructor
  · intro h
    unfold unescape
    rw [if_pos (fun hcon => h ((contains_backslash_iff s.data).mp hcon))]
  · intro ha hwf
    by_cases hb : s.data.contains '\\' = true
    · unfold unescape
      rw [if_neg (fun hn => hn hb), if_pos ha,
        show uEsc s.data = .ok (decodeEsc s.data) from uEscF_wf_eq s.data.length s.data hwf]
      rfl
    · have hnb : '\\' ∉ s.data := fun hm => hb ((contains_backslash_iff s.data).mpr hm)
      unfold unescape
      rw [if_pos hb, show decodeEsc s.data = s.data from decodeEscF_no_backslash _ _ hnb]

/-- Witness for the amended C9 theorem at the raw string a backslash n b. -/
theorem c9_decode_wellformed_witness :
    unescape "a\\nb" = .ok "a\nb" := by
  have h := (c9_decode_wellformed "a\\nb").2 (by decide) (by decide)
  rw [h]
  rfl

/-! ## The splitter partitions its input -/

theorem drop_length_takeWhile (p : Char → Bool) :
    ∀ l : List Char, l.drop (l.takeWhile p).length = l.dropWhile p := by
  intro l
  induction l with
  | nil => rfl
  | cons c t ih =>
    by_cases h : p c
    · simp [List.takeWhile_cons, List.dropWhile_cons, h, ih]
    · simp [List.takeWhile_cons, List.dropWhile_cons, h]

theorem dropWhile_length_le (p : Char → Bool) :
    ∀ l : List Char, (l.dropWhile p).length ≤ l.length := by
  intro l
  induction l with
  | nil => simp
  | cons c t ih =>
    by_cases h : p c
    · rw [List.dropWhile_cons_of_pos h]
      exact le_trans ih (Nat.le_succ _)
    · rw [List.dropWhile_cons_of_neg h]

theorem wordScanGo_consume : ∀ fuel left chunkRev rest,
    ∃ d, (wordScanGo fuel left chunkRev rest).1 = chunkRev.reverse ++ d ∧
      d ++ (wordScanGo fuel left chunkRev rest).2 = rest := by
  intro fuel
  induction fuel with
  | zero =>
    intro left chunkRev rest
    exact ⟨[], by simp [wordScanGo], by simp [wordScanGo]⟩
  | succ fuel ih =>
    intro left chunkRev rest
    rcases rest with - | ⟨r, rs⟩
    · exact ⟨[], by simp [wordScanGo], by simp [wordScanGo]⟩
    · simp only [wordScanGo]
      split_ifs with h1 h2 h3
      · have hr : r = '-' := by
          simp only [Bool.and_eq_true, decide_eq_true_eq] at h1
          exact h1.1.1
        subst hr
        exact ⟨['-'], by simp, by simp⟩
      · exact ⟨[], by simp, by simp⟩
      · exact ⟨[], by simp, by simp⟩
      · obtain ⟨d, hd1, hd2⟩ := ih (r :: left) (r :: chunkRev) rs
        refine ⟨r :: d, ?_, ?_⟩
        · rw [hd1]
          simp
        · simp only [List.cons_append, hd2]

theorem splitRun_flatten : ∀ fuel left l, l.length < fuel →
    (splitRun fuel left l).flatten = l := by
  intro fuel
  induction fuel with
  | zero =>
    intro left l h
    exact absurd h (Nat.not_lt_zero _)
  | succ fuel ih =>
    intro left l hlen
    rcases l with - | ⟨c, rest⟩
    · rfl
    · simp only [splitRun]
      split_ifs with h1 h2
      · have hrun : (c :: rest).takeWhile isWsChar = c :: rest.takeWhile isWsChar := by
          simp [List.takeWhile_cons, h1]
        rw [List.flatten_cons, drop_length_takeWhile,
          ih _ _ ?_, List.takeWhile_append_dropWhile]
        calc ((c :: rest).dropWhile isWsChar).length
            = (rest.dropWhile isWsChar).length := by simp [List.dropWhile_cons, h1]
          _ ≤ rest.length := dropWhile_length_le isWsChar rest
          _ < fuel := by
              simp only [List.length_cons] at hlen
              omega
      · have hem : emAhead (c :: rest) = true := by
          simp only [Bool.and_eq_true] at h2
          exact h2.2
        have hc : c = '-' := by
          unfold emAhead at hem
          simp only [Bool.and_eq_true, decide_eq_true_eq] at hem
          by_contra hcc
          have : (c :: rest).takeWhile (fun c2 => c2 = '-') = [] := by
            simp [List.takeWhile_cons, hcc]
          rw [this] at hem
          simp at hem
        rw [List.flatten_cons, drop_length_takeWhile,
          ih _ _ ?_, List.takeWhile_append_dropWhile]
        subst hc
        calc ((Char.ofNat 45 :: rest).dropWhile (fun c2 => c2 = '-')).length
            = (rest.dropWhile (fun c2 => c2 = '-')).length := by
              simp [List.dropWhile_cons]
          _ ≤ rest.length := dropWhile_length_le _ rest
          _ < fuel := by
              simp only [List.length_cons] at hlen
              omega
      · obtain ⟨d, hd1, hd2⟩ := wordScanGo_consume rest.length (c :: left) [c] rest
        have hlen2 : (wordScanGo rest.length (c :: left) [c] rest).2.length < fuel := by
          have : d.length + (wordScanGo rest.length (c :: left) [c] rest).2.length
              = rest.length := by
            rw [← List.length_append, hd2]
          simp only [List.length_cons] at hlen
          omega
        rw [List.flatten_cons, ih _ _ hlen2, hd1]
        simp only [List.reverse_cons, List.reverse_nil, List.nil_append,
          List.singleton_append, List.cons_append, List.append_assoc]
        rw [hd2]

/-- The chunks of the textwrap splitter concatenate back to the munged
    text. -/
theorem splitChunks_flatten (l : List Char) : (splitChunks l).flatten = l :=
  splitRun_flatten (l.length + 1) [] l (Nat.lt_succ_self _)

theorem sumLen_eq_length_flatten (cs : List (List Char)) :
    sumLen cs = cs.flatten.length := by
  rw [sumLen, List.length_flatten]

/-! ## Wrapping a text that fits on one line -/

theorem greedyTake_all (w : Nat) : ∀ cs acc, sumLen cs + acc ≤ w →
    greedyTake w acc cs = (cs, []) := by
  intro cs
  induction cs with
  | nil => intro acc _; rfl
  | cons c t ih =>
    intro acc h
    have hs : sumLen (c :: t) = c.length + sumLen t := by
      simp [sumLen]
    have hfit : acc + c.length ≤ w := by omega
    simp only [greedyTake, if_pos hfit]
    rw [ih (acc + c.length) (by omega)]

theorem wrapGo_nil (w fuel : Nat) (lines : List (List Char)) :
    wrapGo w fuel lines [] = lines.reverse := by
  cases fuel <;> rfl

theorem wrapGo_all_fit (w : Nat) (fuel : Nat) (c0 : List Char) (rest0 : List (List Char))
    (hsum : sumLen (c0 :: rest0) ≤ w) :
    (wrapGo w (fuel + 1) [] (c0 :: rest0)).length ≤ 1 := by
  have hg := greedyTake_all w (c0 :: rest0) 0 (by omega)
  have hsnd : (wrapIter w [] (c0 :: rest0)).2 = [] := by
    simp only [wrapIter, hg]
  have hfst : (wrapIter w [] (c0 :: rest0)).1.length ≤ 1 := by
    simp only [wrapIter, hg]
    split <;> simp
  simp only [wrapGo, List.isEmpty_nil, Bool.not_true, Bool.false_and, Bool.false_eq_true,
    if_false, hsnd, wrapGo_nil, List.length_reverse]
  exact hfst

theorem pyWrapCore_short (w : Nat) (l : List Char)
    (h : (munge l).length ≤ w) : (pyWrapCore w l).length ≤ 1 := by
  unfold pyWrapCore
  have hsum : sumLen (splitChunks (munge l)) ≤ w := by
    rw [sumLen_eq_length_flatten, splitChunks_flatten]
    exact h
  rcases hcs : splitChunks (munge l) with - | ⟨c0, rest0⟩
  · simp [wrapGo_nil]
  · rw [hcs] at hsum
    exact wrapGo_all_fit w _ c0 rest0 hsum

/-! ## The overflow condition -/

theorem expandTabsGo_no_tab : ∀ col l, '\t' ∉ l → expandTabsGo col l = l := by
  intro col l
  induction l generalizing col with
  | nil => intro _; rfl
  | cons c t ih =>
    intro h
    have hc : ¬ c = '\t' := fun hcc => h (by simp [hcc])
    have ht : '\t' ∉ t := fun hm => h (List.mem_cons_of_mem c hm)
    simp only [expandTabsGo, if_neg hc]
    split_ifs <;> rw [ih _ ht]

theorem munge_length_no_tab (l : List Char) (h : '\t' ∉ l) :
    (munge l).length = l.length := by
  unfold munge
  rw [expandTabsGo_no_tab 0 l h, List.length_map]

theorem overflow_mem_iff (nw : Bool) (r : LangRecord) :
    Diag.eOverflow ∈ (checkRecord nw r).1 ↔
      (((pyWrap r.cols r.translation).length : Int) > r.rows ∨
        (r.rows = 1 ∧ r.translation.length > r.cols)) := by
  have hov : Diag.eOverflow ∈ overflowDiags r ↔
      (((pyWrap r.cols r.translation).length : Int) > r.rows ∨
        (r.rows = 1 ∧ r.translation.length > r.cols)) := by
    unfold overflowDiags
    split_ifs with h <;> simp [h]
  have h1 : Diag.eOverflow ∉ srcOverflowDiags nw r := fun h => by
    cases mem_srcOverflowDiags h
  have h3 : Diag.eOverflow ∉ placeholderDiags r := fun h => by
    cases mem_placeholderDiags h
  have h5 : Diag.eOverflow ∉ shortDiags nw r := fun h => by
    cases mem_shortDiags h
  unfold checkRecord
  cases hp : punctCheck nw r with
  | error e =>
    simpa [List.mem_append, h1, h3, h5] using hov
  | ok d4 =>
    have h4 : Diag.eOverflow ∉ d4 := fun h => by
      rcases mem_punctOk hp h with h | h <;> cases h
    simpa [List.mem_append, h1, h3, h4, h5] using hov

/-- Claim C6 (amended single-row condition): for rows greater than 1 the
    overflow error fires exactly when the wrapped translation has more
    lines than rows, as the claim states. For rows equal to 1 the code also
    fires when the wrapped translation spans more than one line even though
    the raw length fits, which tab expansion can cause; when the decoded
    translation contains no tab the claimed equivalence holds: the error
    fires exactly when the raw character length exceeds columns. -/
theorem c6_overflow_condition (nw : Bool) (r : LangRecord) (_hc : 1 ≤ r.cols) :
    (r.rows = 1 → '\t' ∉ r.translation.data →
      (Diag.eOverflow ∈ (checkRecord nw r).1 ↔ r.cols < r.translation.length)) ∧
    (1 < r.rows →
      (Diag.eOverflow ∈ (checkRecord nw r).1 ↔
        r.rows < ((pyWrap r.cols r.translation).length : Int))) := by
  constructor
  · intro hrow htab
    rw [overflow_mem_iff]
    constructor
    · rintro (h | h)
      · by_contra hlen
        push_neg at hlen
        have hdata : r.translation.length = r.translation.data.length := rfl
        have hm : (munge r.translation.data).length ≤ r.cols := by
          rw [munge_length_no_tab _ htab, ← hdata]
          exact hlen
        have hshort := pyWrapCore_short r.cols r.translation.data hm
        have hplen : (pyWrap r.cols r.translation).length =
            (pyWrapCore r.cols r.translation.data).length := by
          simp [pyWrap]
        rw [hrow] at h
        rw [hplen] at h
        omega
      · exact h.2
    · intro h
      exact Or.inr ⟨hrow, h⟩
  · intro hrow
    rw [overflow_mem_iff]
    constructor
    · rintro (h | h)
      · exact h
      · exact absurd h.1 (by omega)
    · intro h
      exact Or.inl h

/-- Witness for the amended C6 theorem: a record with rows 1, columns 10
    and the five-character tab-free translation hello does not fire the
    overflow error. -/
theorem c6_overflow_condition_witness :
    Diag.eOverflow ∉ (checkRecord false ⟨"hi", "hello", 1, 10⟩).1 := by
  intro hm
  have h := ((c6_overflow_condition false ⟨"hi", "hello", 1, 10⟩ (by decide)).1 rfl
    (by decide)).mp hm
  exact absurd h (by decide)

/-! ## Structure of words -/

theorem wordsGo_ws_append (u : List Char) (hu : allWs u = true) :
    ∀ v, wordsGo [] (u ++ v) = wordsGo [] v := by
  induction u with
  | nil => intro v; rfl
  | cons c t ih =>
    intro v
    rw [List.cons_append]
    have hc : isWsChar c = true := by
      simp only [allWs, List.all_cons, Bool.and_eq_true] at hu
      exact hu.1
    have ht : allWs t = true := by
      simp only [allWs, List.all_cons, Bool.and_eq_true] at hu
      exact hu.2
    simp only [wordsGo, hc, if_true, List.isEmpty_nil]
    exact ih ht v

theorem wordsGo_nonws_append (u : List Char) (hu : ∀ c ∈ u, isWsChar c = false) :
    ∀ acc v, wordsGo acc (u ++ v) = wordsGo (u.reverse ++ acc) v := by
  induction u with
  | nil => intro acc v; simp
  | cons c t ih =>
    intro acc v
    rw [List.cons_append]
    have hc : isWsChar c = false := hu c (List.mem_cons_self c t)
    simp only [wordsGo, hc, Bool.false_eq_true, if_false]
    rw [ih (fun x hx => hu x (List.mem_cons_of_mem c hx)) (c :: acc) v]
    simp

theorem wordsGo_acc_spec : ∀ (rest acc : List Char), acc ≠ [] →
    wordsGo acc rest = (acc.reverse ++ rest.takeWhile (fun x => !isWsChar x)) ::
      wordsGo [] (rest.dropWhile (fun x => !isWsChar x)) := by
  intro rest
  induction rest with
  | nil =>
    intro acc h
    rcases acc with - | ⟨a, as⟩
    · exact absurd rfl h
    · simp [wordsGo]
  | cons r rs ih =>
    intro acc h
    by_cases hr : isWsChar r = true
    · have hacc : acc.isEmpty = false := by
        rcases acc with - | ⟨a, as⟩
        · exact absurd rfl h
        · rfl
      simp only [wordsGo, hr, if_true, hacc, Bool.false_eq_true, if_false,
        List.takeWhile_cons, List.dropWhile_cons, Bool.not_true]
      simp [wordsGo, hr]
    · have hrf : isWsChar r = false := by
        rcases hb : isWsChar r with - | -
        · rfl
        · exact absurd hb hr
      simp only [wordsGo, hrf, Bool.false_eq_true, if_false, List.takeWhile_cons,
        List.dropWhile_cons, Bool.not_false, if_true]
      rw [ih (r :: acc) (by simp)]
      simp

theorem words_cons_nonws (c : Char) (rest : List Char) (h : isWsChar c = false) :
    words (c :: rest) = (c :: rest.takeWhile (fun x => !isWsChar x)) ::
      wordsGo [] (rest.dropWhile (fun x => !isWsChar x)) := by
  unfold words
  rw [show wordsGo [] (c :: rest) = wordsGo [c] rest by
    simp [wordsGo, h]]
  rw [wordsGo_acc_spec rest [c] (by simp)]
  simp

theorem allWs_false_of_nonws (ch : List Char) (hne : ch ≠ [])
    (h : ∀ c ∈ ch, isWsChar c = false) : allWs ch = false := by
  rcases ch with - | ⟨c, t⟩
  · exact absurd rfl hne
  · simp only [allWs, List.all_cons, h c (List.mem_cons_self c t), Bool.false_and]

theorem allWs_sub (ch sub : List Char) (hsub : sub ⊆ ch) (h : allWs ch = true) :
    allWs sub = true := by
  simp only [allWs, List.all_eq_true] at h ⊢
  exact fun c hc => h c (hsub hc)

theorem words_flatten_filter : ∀ cur : List (List Char),
    (∀ ch ∈ cur, ch ≠ [] ∧ (allWs ch = true ∨ ∀ c ∈ ch, isWsChar c = false)) →
    List.Chain' (fun a b => allWs a = true ∨ allWs b = true) cur →
    words cur.flatten = cur.filter (fun ch => !allWs ch) := by
  intro cur
  induction cur with
  | nil => intro _ _; rfl
  | cons ch rest ih =>
    intro hprop hchain
    obtain ⟨hne, hcls⟩ := hprop ch (List.mem_cons_self ch rest)
    rcases hcls with hws | hnw
    · rw [List.flatten_cons, show words (ch ++ rest.flatten) = words rest.flatten from
        wordsGo_ws_append ch hws rest.flatten]
      rw [ih (fun x hx => hprop x (List.mem_cons_of_mem ch hx)) hchain.tail]
      simp [List.filter_cons, hws]
    · have hwsf : allWs ch = false := allWs_false_of_nonws ch hne hnw
      rw [List.flatten_cons]
      rw [show words (ch ++ rest.flatten) = wordsGo (ch.reverse ++ []) rest.flatten from
        wordsGo_nonws_append ch hnw [] rest.flatten]
      rw [List.append_nil]
      rcases rest with - | ⟨r, rest2⟩
      · rcases hch : ch.reverse with - | ⟨a, as⟩
        · exact absurd (by simpa using hch) hne
        · simp only [List.flatten_nil, wordsGo, hch, List.isEmpty_cons,
            Bool.false_eq_true, if_false]
          rw [← hch]
          simp [List.filter_cons, hwsf]
      · have hrl : allWs r = true := by
          rcases hchain.rel_head with h1 | h1
          · exact absurd h1 (by simp [hwsf])
          · exact h1
        obtain ⟨hrne, -⟩ := hprop r (List.mem_cons_of_mem ch (List.mem_cons_self r rest2))
        rcases r with - | ⟨rc, rt⟩
        · exact absurd rfl hrne
        · have hrc : isWsChar rc = true := by
            simp only [allWs, List.all_cons, Bool.and_eq_true] at hrl
            exact hrl.1
          have hrt : allWs rt = true := by
            simp only [allWs, List.all_cons, Bool.and_eq_true] at hrl
            exact hrl.2
          have haccne : ch.reverse ≠ [] := by
            intro hx
            exact hne (by simpa using hx)
          have haccf : ch.reverse.isEmpty = false := by
            rcases hcr : ch.reverse with - | ⟨a, as⟩
            · exact absurd hcr haccne
            · rfl
          rw [List.flatten_cons, List.cons_append]
          simp only [wordsGo, hrc, if_true, haccf, Bool.false_eq_true, if_false]
          rw [List.reverse_reverse]
          rw [wordsGo_ws_append rt hrt rest2.flatten]
          have hrec := ih (fun x hx => hprop x (List.mem_cons_of_mem ch hx)) hchain.tail
          rw [List.flatten_cons] at hrec
          rw [show words ((rc :: rt) ++ rest2.flatten) = wordsGo [] rest2.flatten from
            wordsGo_ws_append (rc :: rt) hrl rest2.flatten] at hrec
          rw [hrec]
          simp [List.filter_cons, hwsf]

/-! ## Auxiliary facts about the greedy filler -/

theorem greedyTake_append (w : Nat) : ∀ (cs : List (List Char)) (acc : Nat),
    (greedyTake w acc cs).1 ++ (greedyTake w acc cs).2 = cs := by
  intro cs
  induction cs with
  | nil => intro acc; rfl
  | cons c t ih =>
    intro acc
    by_cases hfit : acc + c.length ≤ w
    · simp only [greedyTake, if_pos hfit, List.cons_append, ih (acc + c.length)]
    · simp only [greedyTake, if_neg hfit]
      rfl

theorem greedyTake_nil_fst (w : Nat) (c : List Char) (t : List (List Char)) (acc : Nat)
    (h : (greedyTake w acc (c :: t)).1 = []) : ¬ acc + c.length ≤ w := by
  intro hfit
  simp only [greedyTake, if_pos hfit] at h
  exact List.cons_ne_nil _ _ h

theorem rfindHyph_none (l : List Char) (h : '-' ∉ l) : rfindHyph l = none := by
  induction l with
  | nil => rfl
  | cons c t ih =>
    have hc : ¬ c = '-' := fun hcc => h (by simp [hcc])
    simp only [rfindHyph, ih (fun hm => h (List.mem_cons_of_mem c hm)), if_neg hc]

theorem sumLen_cons (c : List Char) (t : List (List Char)) :
    sumLen (c :: t) = c.length + sumLen t := by
  simp [sumLen]

theorem sumLen_append (a b : List (List Char)) :
    sumLen (a ++ b) = sumLen a + sumLen b := by
  simp [sumLen]

theorem sumLen_pos (g1 : List (List Char)) (hne : g1 ≠ [])
    (h : ∀ ch ∈ g1, ch ≠ []) : 1 ≤ sumLen g1 := by
  rcases g1 with - | ⟨c, t⟩
  · exact absurd rfl hne
  · have hc : c ≠ [] := h c (List.mem_cons_self c t)
    have : 1 ≤ c.length := by
      rcases c with - | ⟨x, xs⟩
      · exact absurd rfl hc
      · simp
    rw [sumLen_cons]
    omega

theorem getLast?_none_eq_nil (l : List (List Char)) (h : l.getLast? = none) : l = [] := by
  rcases l with - | ⟨a, t⟩
  · rfl
  · simp [List.getLast?_eq_getElem?] at h

theorem filter_dropLast_ws : ∀ (g1 : List (List Char)) (lastC : List Char),
    g1.getLast? = some lastC → allWs lastC = true →
    g1.dropLast.filter (fun ch => !allWs ch) = g1.filter (fun ch => !allWs ch) := by
  intro g1
  induction g1 with
  | nil => intro lastC h _; cases h
  | cons a t ih =>
    intro lastC h hws
    rcases t with - | ⟨b, t2⟩
    · have ha : a = lastC := by
        simpa using h
      subst ha
      simp [List.filter_cons, hws]
    · have h2 : (b :: t2).getLast? = some lastC := by
        rw [List.getLast?_cons_cons] at h
        exact h
      have hrec := ih lastC h2 hws
      rw [show (a :: b :: t2).dropLast = a :: (b :: t2).dropLast from rfl]
      simp [List.filter_cons, hrec]

theorem flatWords_lines2 (lines : List (List Char)) (cur : List (List Char)) :
    (((if cur.isEmpty then lines else cur.flatten :: lines)).reverse.map words).flatten =
      ((lines.reverse.map words).flatten) ++ words cur.flatten := by
  by_cases h : cur.isEmpty
  · have hc : cur = [] := by
      rcases cur with - | ⟨x, xs⟩
      · rfl
      · cases h
    subst hc
    simp [words, wordsGo]
  · rw [if_neg h]
    simp [List.reverse_cons, List.map_append, List.flatten_append]

theorem curWords (g1 : List (List Char))
    (hprop : ∀ ch ∈ g1, ch ≠ [] ∧ (allWs ch = true ∨ ∀ c ∈ ch, isWsChar c = false))
    (hchain : List.Chain' (fun a b => allWs a = true ∨ allWs b = true) g1) :
    words ((match g1.getLast? with
            | some lastC => if allWs lastC then g1.dropLast else g1
            | none => g1).flatten) = g1.filter (fun ch => !allWs ch) := by
  rcases hl : g1.getLast? with - | lastC
  · rw [getLast?_none_eq_nil g1 hl]
    rfl
  · by_cases hws : allWs lastC = true
    · simp only [hws, if_true]
      rw [words_flatten_filter g1.dropLast
        (fun x hx => hprop x (List.dropLast_subset g1 hx)) hchain.init]
      exact filter_dropLast_ws g1 lastC hl hws
    · simp only [hws, Bool.false_eq_true, if_false]
      exact words_flatten_filter g1 hprop hchain

/-! ## The splitter on hyphen-free text -/

theorem splitRun_nil : ∀ (fuel : Nat) (left : List Char), splitRun fuel left [] = [] := by
  intro fuel left
  cases fuel <;> rfl

theorem emAhead_false_of_no_hyphen (l : List Char) (h : ∀ c ∈ l, ¬ c = '-') :
    emAhead l = false := by
  rcases l with - | ⟨c, t⟩
  · rfl
  · have hc : ¬ c = '-' := h c (List.mem_cons_self c t)
    unfold emAhead
    rw [List.takeWhile_cons_of_neg (by simpa using hc)]
    rfl

theorem wordScanGo_noHyph : ∀ (fuel : Nat) (rest : List Char), rest.length ≤ fuel →
    (∀ c ∈ rest, ¬ c = '-') → ∀ (left chunkRev : List Char),
    wordScanGo fuel left chunkRev rest =
      (chunkRev.reverse ++ rest.takeWhile (fun x => !isWsChar x),
       rest.dropWhile (fun x => !isWsChar x)) := by
  intro fuel
  induction fuel with
  | zero =>
    intro rest hlen _ left chunkRev
    have : rest = [] := List.length_eq_zero.mp (Nat.le_zero.mp hlen)
    subst this
    simp [wordScanGo]
  | succ fuel ih =>
    intro rest hlen hh left chunkRev
    rcases rest with - | ⟨r, rs⟩
    · simp [wordScanGo]
    · have hr : ¬ r = '-' := hh r (List.mem_cons_self r rs)
      have hcond1 : (decide (r = '-') && hyphBehind left && hyphAhead rs) = false := by
        simp [hr]
      by_cases hws : isWsChar r = true
      · simp only [wordScanGo, hcond1, Bool.false_eq_true, if_false, hws, if_true]
        rw [List.takeWhile_cons_of_neg (by simp [hws]),
          List.dropWhile_cons_of_neg (by simp [hws])]
        simp
      · have hcond3 : (prevIsWordPunct left && emAhead (r :: rs)) = false := by
          rw [emAhead_false_of_no_hyphen (r :: rs) hh]
          simp
        have hwsf : isWsChar r = false := by
          rcases hb : isWsChar r with - | -
          · rfl
          · exact absurd hb hws
        simp only [wordScanGo, hcond1, Bool.false_eq_true, if_false, hws, hcond3]
        rw [ih rs (by simp only [List.length_cons] at hlen; omega)
          (fun c hc => hh c (List.mem_cons_of_mem r hc)) (r :: left) (r :: chunkRev)]
        rw [List.takeWhile_cons_of_pos (by simp [hwsf]),
          List.dropWhile_cons_of_pos (by simp [hwsf])]
        simp

theorem splitRun_noHyph : ∀ (fuel : Nat) (l : List Char) (left : List Char),
    l.length < fuel → (∀ c ∈ l, ¬ c = '-') →
    (∀ ch ∈ splitRun fuel left l, ch ≠ [] ∧
        (allWs ch = true ∨ ∀ c ∈ ch, isWsChar c = false)) ∧
    List.Chain' (fun a b => allWs a = true ∨ allWs b = true) (splitRun fuel left l) ∧
    (splitRun fuel left l).filter (fun ch => !allWs ch) = words l ∧
    (∀ ch t2, splitRun fuel left l = ch :: t2 →
      ∀ c crest, l = c :: crest → allWs ch = isWsChar c) := by
  intro fuel
  induction fuel with
  | zero =>
    intro l left h _
    exact absurd h (Nat.not_lt_zero _)
  | succ fuel ih =>
    intro l left hlen hh
    rcases l with - | ⟨c, rest⟩
    · refine ⟨by simp [splitRun], by simp [splitRun], by simp [splitRun, words, wordsGo], ?_⟩
      intro ch t2 h
      simp [splitRun] at h
    · simp only [splitRun]
      by_cases hws : isWsChar c = true
      · rw [if_pos hws]
        have hrun : (c :: rest).takeWhile isWsChar = c :: rest.takeWhile isWsChar :=
          List.takeWhile_cons_of_pos hws
        have hrunws : allWs ((c :: rest).takeWhile isWsChar) = true :=
          List.all_takeWhile (p := isWsChar) (l := c :: rest)
        have hrunne : (c :: rest).takeWhile isWsChar ≠ [] := by
          rw [hrun]
          simp
        have hdl : (c :: rest).drop ((c :: rest).takeWhile isWsChar).length =
            (c :: rest).dropWhile isWsChar := drop_length_takeWhile isWsChar (c :: rest)
        have hrest2 : ((c :: rest).dropWhile isWsChar).length < fuel := by
          rw [List.dropWhile_cons_of_pos hws]
          have := dropWhile_length_le isWsChar rest
          simp only [List.length_cons] at hlen
          omega
        have hh2 : ∀ x ∈ (c :: rest).dropWhile isWsChar, ¬ x = '-' := by
          intro x hx
          have hsub := List.dropWhile_sublist (p := isWsChar) (l := c :: rest)
          exact hh x (hsub.subset hx)
        obtain ⟨ihp, ihc, ihf, ihh⟩ := ih ((c :: rest).dropWhile isWsChar) _ hrest2 hh2
        rw [hdl]
        refine ⟨?_, ?_, ?_, ?_⟩
        · intro ch hch
          rcases List.mem_cons.mp hch with h1 | h1
          · subst h1
            exact ⟨hrunne, Or.inl hrunws⟩
          · exact ihp ch h1
        · refine List.Chain'.cons' ihc ?_
          intro y _
          exact Or.inl hrunws
        · rw [List.filter_cons, show (!allWs ((c :: rest).takeWhile isWsChar)) = false by
            rw [hrunws]; rfl]
          simp only [Bool.false_eq_true, if_false]
          rw [ihf]
          have hws_pre : allWs ((c :: rest).takeWhile isWsChar) = true := hrunws
          conv_rhs => rw [show (c :: rest) =
            (c :: rest).takeWhile isWsChar ++ (c :: rest).dropWhile isWsChar from
            (List.takeWhile_append_dropWhile isWsChar (c :: rest)).symm]
          exact (wordsGo_ws_append _ hws_pre _).symm
        · intro ch t2 hsp c2 crest hl
          cases hsp
          cases hl
          rw [hrunws, hws]
      · rw [if_neg (by simp [hws])]
        have hcond3 : (prevIsWordPunct left && emAhead (c :: rest)) = false := by
          rw [emAhead_false_of_no_hyphen (c :: rest) hh]
          simp
        rw [if_neg (by simp [hcond3])]
        have hwsf : isWsChar c = false := by
          rcases hb : isWsChar c with - | -
          · rfl
          · exact absurd hb hws
        have hscan := wordScanGo_noHyph rest.length rest (Nat.le_refl _)
          (fun x hx => hh x (List.mem_cons_of_mem c hx)) (c :: left) [c]
        rw [hscan]
        have hchunk : ([c].reverse ++ rest.takeWhile (fun x => !isWsChar x)) =
            c :: rest.takeWhile (fun x => !isWsChar x) := by
          simp
        have hchne : (c :: rest.takeWhile (fun x => !isWsChar x)) ≠ [] := by
          simp
        have hchnw : ∀ x ∈ c :: rest.takeWhile (fun x => !isWsChar x), isWsChar x = false := by
          intro x hx
          rcases List.mem_cons.mp hx with h1 | h1
          · subst h1
            exact hwsf
          · have hall := List.all_takeWhile (p := fun x => !isWsChar x) (l := rest)
            simp only [List.all_eq_true] at hall
            have hx2 := hall x h1
            simpa using hx2
        have hchws : allWs (c :: rest.takeWhile (fun x => !isWsChar x)) = false :=
          allWs_false_of_nonws _ hchne hchnw
        have hrest2 : (rest.dropWhile (fun x => !isWsChar x)).length < fuel := by
          have := dropWhile_length_le (fun x => !isWsChar x) rest
          simp only [List.length_cons] at hlen
          omega
        have hh2 : ∀ x ∈ rest.dropWhile (fun x => !isWsChar x), ¬ x = '-' := by
          intro x hx
          have hsub := List.dropWhile_sublist (p := fun x => !isWsChar x) (l := rest)
          exact hh x (List.mem_cons_of_mem c (hsub.subset hx))
        obtain ⟨ihp, ihc, ihf, ihh⟩ := ih (rest.dropWhile (fun x => !isWsChar x)) _ hrest2 hh2
        simp only [hchunk]
        refine ⟨?_, ?_, ?_, ?_⟩
        · intro ch hch
          rcases List.mem_cons.mp hch with h1 | h1
          · subst h1
            exact ⟨hchne, Or.inr hchnw⟩
          · exact ihp ch h1
        · refine List.Chain'.cons' ihc ?_
          intro y hy
          rcases hsp : splitRun fuel ((c :: rest.takeWhile (fun x => !isWsChar x)).reverse ++ left)
              (rest.dropWhile (fun x => !isWsChar x)) with - | ⟨ch2, t2⟩
          · rw [hsp] at hy
            cases hy
          · rw [hsp] at hy
            simp only [List.head?_cons, Option.mem_def, Option.some.injEq] at hy
            subst hy
            rcases hdw : rest.dropWhile (fun x => !isWsChar x) with - | ⟨d, ds⟩
            · rw [hdw, splitRun_nil] at hsp
              cases hsp
            · have hlink := ihh ch2 t2 hsp d ds hdw
              have hd : isWsChar d = true := by
                have hnot := List.head?_dropWhile_not (fun x => !isWsChar x) rest
                rw [hdw] at hnot
                simpa using hnot
              rw [hd] at hlink
              exact Or.inr hlink
        · rw [List.filter_cons, show (!allWs (c :: rest.takeWhile (fun x => !isWsChar x))) = true by
            rw [hchws]; rfl, if_pos rfl]
          rw [ihf]
          exact (words_cons_nonws c rest hwsf).symm
        · intro ch t2 hsp c2 crest hl
          cases hsp
          cases hl
          rw [hchws, hwsf]

/-! ## One iteration of the filling loop -/

theorem greedyTake_sumLen (w : Nat) : ∀ (cs : List (List Char)) (acc : Nat),
    acc + sumLen (greedyTake w acc cs).1 ≤ w ∨ (greedyTake w acc cs).1 = [] := by
  intro cs
  induction cs with
  | nil => intro acc; right; rfl
  | cons c t ih =>
    intro acc
    by_cases hfit : acc + c.length ≤ w
    · left
      simp only [greedyTake, if_pos hfit]
      rw [sumLen_cons]
      rcases ih (acc + c.length) with h | h
      · omega
      · rw [h, show sumLen ([] : List (List Char)) = 0 from rfl]
        omega
    · right
      simp only [greedyTake, if_neg hfit]

theorem rfindHyph_ws (ch : List Char) (h : allWs ch = true) : rfindHyph ch = none := by
  apply rfindHyph_none
  intro hm
  have h2 := List.all_eq_true.mp h '-' hm
  exact absurd h2 (by decide)

theorem handleLong_ws (w curLen : Nat) (hw : 1 ≤ w)
    (taken : List (List Char)) (ch : List Char) (rest : List (List Char))
    (hws : allWs ch = true) (hlong : w < ch.length) (hcur : curLen ≤ w) :
    handleLong w curLen taken ch rest =
      (taken ++ [ch.take (w - curLen)], ch.drop (w - curLen) :: rest) := by
  have hnl : ¬ w < 1 := by omega
  have hsl : w - curLen < ch.length := by omega
  have hrf : rfindHyph (ch.take (w - curLen)) = none :=
    rfindHyph_ws _ (allWs_sub ch _ (List.take_subset _ ch) hws)
  simp only [handleLong, if_neg hnl, if_pos hsl, hrf]

theorem isWsChar_pyIsSpace (c : Char) (h : isWsChar c = true) : pyIsSpace c = true := by
  simp only [isWsChar, Bool.or_eq_true, decide_eq_true_eq] at h
  rcases h with ((((h | h) | h) | h) | h) | h <;> subst h <;> decide

theorem stripEmpty_of_allWs (ch : List Char) (h : allWs ch = true) :
    stripEmpty ch = true := by
  simp only [allWs, List.all_eq_true] at h
  simp only [stripEmpty, List.all_eq_true]
  exact fun c hc => isWsChar_pyIsSpace c (h c hc)

/-- On a nonempty homogeneous chunk none of whose characters is
    strip-whitespace without being textwrap whitespace, the strip test of
    _wrap_chunks coincides with the whitespace-run classification. -/
theorem stripEmpty_eq_allWs (ch : List Char) (hne : ch ≠ [])
    (hhom : allWs ch = true ∨ ∀ c ∈ ch, isWsChar c = false)
    (hag : ∀ c ∈ ch, pyIsSpace c = true → isWsChar c = true) :
    stripEmpty ch = allWs ch := by
  rcases hhom with hws | hnw
  · rw [hws, stripEmpty_of_allWs ch hws]
  · rw [allWs_false_of_nonws ch hne hnw]
    rcases ch with - | ⟨c, t⟩
    · exact absurd rfl hne
    · have h1 : pyIsSpace c = false := by
        rcases hb : pyIsSpace c with - | -
        · rfl
        · have h2 := hag c (List.mem_cons_self c t) hb
          rw [hnw c (List.mem_cons_self c t)] at h2
          exact Bool.noConfusion h2
      simp only [stripEmpty, List.all_cons, h1, Bool.false_and]

theorem dropTrailWs_eq (g1 : List (List Char))
    (hprop : ∀ ch ∈ g1, ch ≠ [] ∧ (allWs ch = true ∨ ∀ c ∈ ch, isWsChar c = false))
    (hag : ∀ ch ∈ g1, ∀ c ∈ ch, pyIsSpace c = true → isWsChar c = true) :
    dropTrailWs g1 = (match g1.getLast? with
      | some lastC => if allWs lastC then g1.dropLast else g1
      | none => g1) := by
  rcases hl : g1.getLast? with - | lastC
  · simp only [dropTrailWs, hl]
  · have hmem : lastC ∈ g1 := List.mem_of_getLast?_eq_some hl
    have hse := stripEmpty_eq_allWs lastC (hprop lastC hmem).1 (hprop lastC hmem).2
      (hag lastC hmem)
    simp only [dropTrailWs, hl, hse]

theorem dropTrailWs_words (g1 : List (List Char))
    (hprop : ∀ ch ∈ g1, ch ≠ [] ∧ (allWs ch = true ∨ ∀ c ∈ ch, isWsChar c = false))
    (hchain : List.Chain' (fun a b => allWs a = true ∨ allWs b = true) g1)
    (hag : ∀ ch ∈ g1, ∀ c ∈ ch, pyIsSpace c = true → isWsChar c = true) :
    words (dropTrailWs g1).flatten = g1.filter (fun ch => !allWs ch) := by
  rw [dropTrailWs_eq g1 hprop hag]
  exact curWords g1 hprop hchain

theorem wrapIter_noLong (w : Nat) (lines : List (List Char)) (c0 : List Char)
    (rest0 : List (List Char)) (g1 g2 : List (List Char))
    (hG : greedyTake w 0 (c0 :: rest0) = (g1, g2))
    (hnl : ∀ ch r2, g2 = ch :: r2 → ¬ w < ch.length) :
    wrapIter w lines (c0 :: rest0) =
      ((if (dropTrailWs g1).isEmpty then lines else (dropTrailWs g1).flatten :: lines),
       g2) := by
  rcases g2 with - | ⟨ch, r2⟩
  · simp only [wrapIter, hG, dropTrailWs]
  · simp only [wrapIter, hG, if_neg (hnl ch r2 rfl), dropTrailWs]

theorem wrapIter_long (w : Nat) (lines : List (List Char)) (c0 : List Char)
    (rest0 : List (List Char)) (g1 : List (List Char)) (ch : List Char)
    (r2 : List (List Char))
    (hG : greedyTake w 0 (c0 :: rest0) = (g1, ch :: r2))
    (hl : w < ch.length) :
    wrapIter w lines (c0 :: rest0) =
      ((if (dropTrailWs (handleLong w (sumLen g1) g1 ch r2).1).isEmpty then lines
        else (dropTrailWs (handleLong w (sumLen g1) g1 ch r2).1).flatten :: lines),
       (handleLong w (sumLen g1) g1 ch r2).2) := by
  simp only [wrapIter, hG, if_pos hl, dropTrailWs]

/-- One iteration of the outer loop of _wrap_chunks, on a nonempty
    hyphen-free chunk list satisfying the invariant: the words of the
    emitted lines together with the non-whitespace chunks still pending are
    unchanged, the pending measure strictly decreases, and the invariant is
    preserved. -/
theorem wrapIter_spec (w : Nat) (hw : 1 ≤ w) (lines : List (List Char))
    (c0 : List Char) (rest0 : List (List Char))
    (hgood : Good w (c0 :: rest0)) :
    (((wrapIter w lines (c0 :: rest0)).1.reverse.map words).flatten ++
        (wrapIter w lines (c0 :: rest0)).2.filter (fun ch => !allWs ch) =
      (lines.reverse.map words).flatten ++
        (c0 :: rest0).filter (fun ch => !allWs ch)) ∧
    sumLen (wrapIter w lines (c0 :: rest0)).2 +
        (wrapIter w lines (c0 :: rest0)).2.length <
      sumLen (c0 :: rest0) + (c0 :: rest0).length ∧
    Good w (wrapIter w lines (c0 :: rest0)).2 := by
  obtain ⟨hprop, hchain, hfit, hag⟩ := hgood
  rcases hG : greedyTake w 0 (c0 :: rest0) with ⟨g1, g2⟩
  have hga : g1 ++ g2 = c0 :: rest0 := by
    have h := greedyTake_append w (c0 :: rest0) 0
    rw [hG] at h
    exact h
  have hpropg1 : ∀ ch ∈ g1, ch ≠ [] ∧ (allWs ch = true ∨ ∀ c ∈ ch, isWsChar c = false) :=
    fun ch h => hprop ch (by rw [← hga]; exact List.mem_append_left g2 h)
  have hpropg2 : ∀ ch ∈ g2, ch ≠ [] ∧ (allWs ch = true ∨ ∀ c ∈ ch, isWsChar c = false) :=
    fun ch h => hprop ch (by rw [← hga]; exact List.mem_append_right g1 h)
  have hfitg2 : ∀ ch ∈ g2, allWs ch = false → ch.length ≤ w :=
    fun ch h => hfit ch (by rw [← hga]; exact List.mem_append_right g1 h)
  have hagg1 : ∀ ch ∈ g1, ∀ c ∈ ch, pyIsSpace c = true → isWsChar c = true :=
    fun ch h => hag ch (by rw [← hga]; exact List.mem_append_left g2 h)
  have hagg2 : ∀ ch ∈ g2, ∀ c ∈ ch, pyIsSpace c = true → isWsChar c = true :=
    fun ch h => hag ch (by rw [← hga]; exact List.mem_append_right g1 h)
  have hchaing1 : List.Chain' (fun a b => allWs a = true ∨ allWs b = true) g1 := by
    rw [← hga] at hchain
    exact hchain.left_of_append
  have hchaing2 : List.Chain' (fun a b => allWs a = true ∨ allWs b = true) g2 := by
    rw [← hga] at hchain
    exact hchain.right_of_append
  have hsum : sumLen (c0 :: rest0) = sumLen g1 + sumLen g2 := by
    rw [← hga, sumLen_append]
  have hlen : (c0 :: rest0).length = g1.length + g2.length := by
    rw [← hga, List.length_append]
  have hfilter : (c0 :: rest0).filter (fun ch => !allWs ch) =
      g1.filter (fun ch => !allWs ch) ++ g2.filter (fun ch => !allWs ch) := by
    rw [← hga, List.filter_append]
  have hcurle : sumLen g1 ≤ w := by
    have h := greedyTake_sumLen w (c0 :: rest0) 0
    simp only [hG] at h
    rcases h with h | h
    · omega
    · rw [h, show sumLen ([] : List (List Char)) = 0 from rfl]
      exact Nat.zero_le w
  rcases g2 with - | ⟨ch, r2⟩
  · -- the greedy fill consumed every chunk
    simp only [wrapIter_noLong w lines c0 rest0 g1 [] hG (fun ch r2 h => nomatch h)]
    refine ⟨?_, ?_, ?_, ?_, ?_, ?_⟩
    · rw [flatWords_lines2 lines (dropTrailWs g1),
        dropTrailWs_words g1 hpropg1 hchaing1 hagg1, hfilter]
      simp
    · have h0 : 0 < (c0 :: rest0).length := by simp
      have h1 : sumLen ([] : List (List Char)) = 0 := rfl
      simp only [h1, List.length_nil]
      omega
    · intro ch h
      exact absurd h (List.not_mem_nil ch)
    · exact List.chain'_nil
    · intro ch h
      exact absurd h (List.not_mem_nil ch)
    · intro ch h
      exact absurd h (List.not_mem_nil ch)
  · by_cases hlong : w < ch.length
    · -- the head pending chunk is longer than the width: it is a
      -- whitespace run, and _handle_long_word cuts it
      have hchmem : ch ∈ c0 :: rest0 := by
        rw [← hga]
        exact List.mem_append_right g1 (List.mem_cons_self ch r2)
      have hchws : allWs ch = true := by
        rcases hb : allWs ch with - | -
        · have := hfit ch hchmem hb
          omega
        · rfl
      have hHL := handleLong_ws w (sumLen g1) hw g1 ch r2 hchws hlong hcurle
      have htkws : allWs (ch.take (w - sumLen g1)) = true :=
        allWs_sub ch _ (List.take_subset _ ch) hchws
      have hdrws : allWs (ch.drop (w - sumLen g1)) = true :=
        allWs_sub ch _ (List.drop_subset _ ch) hchws
      have hdrlen : (ch.drop (w - sumLen g1)).length = ch.length - (w - sumLen g1) := by
        simp
      have htkse : stripEmpty (ch.take (w - sumLen g1)) = true :=
        stripEmpty_of_allWs _ htkws
      have hdtw : dropTrailWs (g1 ++ [ch.take (w - sumLen g1)]) = g1 := by
        simp only [dropTrailWs, List.getLast?_concat, htkse, if_true, List.dropLast_concat]
      simp only [wrapIter_long w lines c0 rest0 g1 ch r2 hG hlong, hHL, hdtw]
      have hg1cases : g1 = [] ∨ 1 ≤ sumLen g1 := by
        rcases hg1 : g1 with - | ⟨a, t⟩
        · exact Or.inl rfl
        · refine Or.inr (sumLen_pos (a :: t) (List.cons_ne_nil a t) ?_)
          intro ch2 h2
          exact (hpropg1 ch2 (by rw [hg1]; exact h2)).1
      refine ⟨?_, ?_, ?_, ?_, ?_, ?_⟩
      · rw [flatWords_lines2 lines g1, words_flatten_filter g1 hpropg1 hchaing1, hfilter]
        rw [List.filter_cons, List.filter_cons]
        simp only [hchws, hdrws, Bool.not_true, Bool.false_eq_true, if_false]
        rw [List.append_assoc]
      · rw [hsum, hlen, sumLen_cons, sumLen_cons, hdrlen]
        simp only [List.length_cons]
        rcases hg1cases with h0 | h1
        · have hs0 : sumLen g1 = 0 := by
            rw [h0]
            rfl
          have hl0 : g1.length = 0 := by
            rw [h0]
            rfl
          omega
        · omega
      · intro ch2 h2
        rcases List.mem_cons.mp h2 with h3 | h3
        · subst h3
          refine ⟨?_, Or.inl hdrws⟩
          intro h0
          have h4 := congrArg List.length h0
          rw [hdrlen] at h4
          simp only [List.length_nil] at h4
          omega
        · exact hpropg2 ch2 (List.mem_cons_of_mem ch h3)
      · refine List.Chain'.cons' hchaing2.tail ?_
        intro y _
        exact Or.inl hdrws
      · intro ch2 h2 hws2
        rcases List.mem_cons.mp h2 with h3 | h3
        · subst h3
          rw [hdrws] at hws2
          exact Bool.noConfusion hws2
        · exact hfitg2 ch2 (List.mem_cons_of_mem ch h3) hws2
      · intro ch2 h2 c hc hps
        rcases List.mem_cons.mp h2 with h3 | h3
        · subst h3
          exact hag ch hchmem c (List.drop_subset _ ch hc) hps
        · exact hagg2 ch2 (List.mem_cons_of_mem ch h3) c hc hps
    · -- every pending chunk fits: the line is g1 and the rest is untouched
      have hg1ne : g1 ≠ [] := by
        intro h0
        subst h0
        have hch : ch = c0 := by
          simp only [List.nil_append] at hga
          exact (List.cons.inj hga).1
        have h1 := greedyTake_nil_fst w c0 rest0 0 (by rw [show (c0 :: rest0) =
          c0 :: rest0 from rfl, hG])
        rw [hch] at hlong
        omega
      have hpos : 1 ≤ sumLen g1 :=
        sumLen_pos g1 hg1ne (fun ch2 h2 => (hpropg1 ch2 h2).1)
      simp only [wrapIter_noLong w lines c0 rest0 g1 (ch :: r2) hG
        (fun ch2 r2' h => by cases h; exact hlong)]
      refine ⟨?_, ?_, ?_, ?_, ?_, ?_⟩
      · rw [flatWords_lines2 lines (dropTrailWs g1),
          dropTrailWs_words g1 hpropg1 hchaing1 hagg1, hfilter, List.append_assoc]
      · rw [hsum, hlen]
        omega
      · exact hpropg2
      · exact hchaing2
      · exact hfitg2
      · exact hagg2

/-- The outer loop of _wrap_chunks preserves the word sequence: the words
    of the emitted lines are the reversed-accumulator words followed by the
    non-whitespace chunks still pending, whenever the fuel dominates the
    measure and the invariant holds. -/
theorem wrapGo_words (w : Nat) (hw : 1 ≤ w) : ∀ (fuel : Nat) (cs lines : List (List Char)),
    sumLen cs + cs.length < fuel → Good w cs →
    ((wrapGo w fuel lines cs).map words).flatten =
      (lines.reverse.map words).flatten ++ cs.filter (fun ch => !allWs ch) := by
  intro fuel
  induction fuel with
  | zero =>
    intro cs lines hm _
    exact absurd hm (Nat.not_lt_zero _)
  | succ fuel ih =>
    intro cs lines hm hgood
    rcases cs with - | ⟨c0, rest0⟩
    · simp only [wrapGo, List.filter_nil, List.append_nil]
    · by_cases hdrop : (!lines.isEmpty && stripEmpty c0) = true
      · have hred : wrapGo w (fuel + 1) lines (c0 :: rest0) =
            wrapGo w fuel (wrapIter w lines rest0).1 (wrapIter w lines rest0).2 := by
          simp only [wrapGo, hdrop, if_true]
        have hc0ws : allWs c0 = true := by
          simp only [Bool.and_eq_true] at hdrop
          obtain ⟨hp, -, -, hagr⟩ := hgood
          obtain ⟨hne, hhom⟩ := hp c0 (List.mem_cons_self c0 rest0)
          rw [← stripEmpty_eq_allWs c0 hne hhom (hagr c0 (List.mem_cons_self c0 rest0))]
          exact hdrop.2
        rcases rest0 with - | ⟨r1, r2⟩
        · rw [hred]
          simp only [show wrapIter w lines [] = (lines, ([] : List (List Char))) from rfl]
          rw [wrapGo_nil]
          simp [List.filter_cons, hc0ws]
        · have hgood2 : Good w (r1 :: r2) := by
            obtain ⟨hp, hc, hf, hagr⟩ := hgood
            exact ⟨fun ch h => hp ch (List.mem_cons_of_mem c0 h), hc.tail,
                   fun ch h => hf ch (List.mem_cons_of_mem c0 h),
                   fun ch h => hagr ch (List.mem_cons_of_mem c0 h)⟩
          obtain ⟨heq, hlt, hgood3⟩ := wrapIter_spec w hw lines r1 r2 hgood2
          rw [hred]
          have hm2 : sumLen (wrapIter w lines (r1 :: r2)).2 +
              (wrapIter w lines (r1 :: r2)).2.length < fuel := by
            have hsc : sumLen (c0 :: r1 :: r2) = c0.length + sumLen (r1 :: r2) :=
              sumLen_cons c0 (r1 :: r2)
            have hlc : (c0 :: r1 :: r2).length = (r1 :: r2).length + 1 := rfl
            omega
          rw [ih _ _ hm2 hgood3, heq]
          simp [List.filter_cons, hc0ws]
      · have hred : wrapGo w (fuel + 1) lines (c0 :: rest0) =
            wrapGo w fuel (wrapIter w lines (c0 :: rest0)).1
              (wrapIter w lines (c0 :: rest0)).2 := by
          simp only [wrapGo, if_neg hdrop]
        obtain ⟨heq, hlt, hgood3⟩ := wrapIter_spec w hw lines c0 rest0 hgood
        rw [hred]
        have hm2 : sumLen (wrapIter w lines (c0 :: rest0)).2 +
            (wrapIter w lines (c0 :: rest0)).2.length < fuel := by
          omega
        rw [ih _ _ hm2 hgood3, heq]

/-- Tab expansion inserts only spaces and keeps the other characters. -/
theorem expandTabsGo_mem : ∀ (l : List Char) (col : Nat) (c : Char),
    c ∈ expandTabsGo col l → c ∈ l ∨ c = ' ' := by
  intro l
  induction l with
  | nil =>
    intro col c h
    simp only [expandTabsGo] at h
    exact absurd h (List.not_mem_nil c)
  | cons a t ih =>
    intro col c h
    simp only [expandTabsGo] at h
    split at h
    · rcases List.mem_append.mp h with h1 | h1
      · exact Or.inr (List.eq_of_mem_replicate h1)
      · rcases ih 0 c h1 with h2 | h2
        · exact Or.inl (List.mem_cons_of_mem a h2)
        · exact Or.inr h2
    · split at h
      · rcases List.mem_cons.mp h with h1 | h1
        · exact Or.inl (by rw [h1]; exact List.mem_cons_self a t)
        · rcases ih 0 c h1 with h2 | h2
          · exact Or.inl (List.mem_cons_of_mem a h2)
          · exact Or.inr h2
      · rcases List.mem_cons.mp h with h1 | h1
        · exact Or.inl (by rw [h1]; exact List.mem_cons_self a t)
        · rcases ih (col + 1) c h1 with h2 | h2
          · exact Or.inl (List.mem_cons_of_mem a h2)
          · exact Or.inr h2

/-- Whitespace normalization cannot create a hyphen. -/
theorem munge_no_hyphen (l : List Char) (h : ∀ c ∈ l, ¬ c = '-') :
    ∀ c ∈ munge l, ¬ c = '-' := by
  intro c hc hcEq
  subst hcEq
  simp only [munge, List.mem_map] at hc
  obtain ⟨a, ha, hae⟩ := hc
  rcases expandTabsGo_mem l 0 a ha with h1 | h1
  · by_cases hws : isWsChar a = true
    · rw [if_pos hws] at hae
      exact absurd hae (by decide)
    · rw [if_neg hws] at hae
      exact h a h1 hae
  · subst h1
    exact absurd hae (by decide)

/-- Whitespace normalization only introduces spaces, so it preserves the
    absence of characters that strip as whitespace without being in
    textwrap's whitespace class. -/
theorem munge_space_agree (l : List Char)
    (h : ∀ c ∈ l, pyIsSpace c = true → isWsChar c = true) :
    ∀ c ∈ munge l, pyIsSpace c = true → isWsChar c = true := by
  intro c hc
  simp only [munge, List.mem_map] at hc
  obtain ⟨a, ha, hae⟩ := hc
  by_cases hws : isWsChar a = true
  · rw [if_pos hws] at hae
    subst hae
    intro _
    decide
  · rw [if_neg hws] at hae
    subst hae
    rcases expandTabsGo_mem l 0 a ha with h1 | h1
    · exact h a h1
    · subst h1
      intro _
      decide

/-- Claim C4 (amended): for every width w at least 1 and every string s
    that is hyphen-free, contains no character stripped by str.strip
    beyond textwrap's whitespace class (such as the ASCII file separators
    0x1c-0x1f or the Unicode spaces), and each of whose
    whitespace-normalized words has length at most w, the wrapper never
    splits a word: the words of the produced fragments, read in order, are
    exactly the words of the whitespace-normalized original, so breaks
    happen only at whitespace boundaries and joining the fragments with
    single spaces reproduces the normalized word sequence. Without the fit
    hypothesis the property fails: a word longer than the width is broken
    apart (break_long_words is on by default), as the width-1
    counterexample above shows. Without the character restriction it also
    fails: a chunk of strip-only whitespace such as 0x1c is a word for the
    splitter, yet the whitespace-dropping steps of _wrap_chunks silently
    discard it. -/
theorem c4_wrap_preserves_words (w : Nat) (s : String) (hw : 1 ≤ w)
    (hhyph : ∀ c ∈ s.data, ¬ c = '-')
    (hsp : ∀ c ∈ s.data, pyIsSpace c = true → isWsChar c = true)
    (hfit : ∀ u ∈ words (munge s.data), u.length ≤ w) :
    ((pyWrap w s).map (fun t => words t.data)).flatten = words (munge s.data) := by
  have hmk : (pyWrap w s).map (fun t => words t.data) = (pyWrapCore w s.data).map words := by
    simp only [pyWrap, List.map_map]
    rfl
  rw [hmk]
  have hml := munge_no_hyphen s.data hhyph
  obtain ⟨hp0, hc0, hf0, -⟩ := splitRun_noHyph ((munge s.data).length + 1) (munge s.data) []
    (Nat.lt_succ_self _) hml
  have hp : ∀ ch ∈ splitChunks (munge s.data),
      ch ≠ [] ∧ (allWs ch = true ∨ ∀ c ∈ ch, isWsChar c = false) := hp0
  have hc : List.Chain' (fun a b => allWs a = true ∨ allWs b = true)
      (splitChunks (munge s.data)) := hc0
  have hf : (splitChunks (munge s.data)).filter (fun ch => !allWs ch) =
      words (munge s.data) := hf0
  have hcs : Good w (splitChunks (munge s.data)) := by
    refine ⟨hp, hc, ?_, ?_⟩
    · intro ch hch hws
      have hmem : ch ∈ (splitChunks (munge s.data)).filter (fun ch => !allWs ch) :=
        List.mem_filter.mpr ⟨hch, by rw [hws]; rfl⟩
      rw [hf] at hmem
      exact hfit ch hmem
    · intro ch hch c hcc
      have hcm : c ∈ munge s.data := by
        rw [← splitChunks_flatten (munge s.data)]
        exact List.mem_flatten.mpr ⟨ch, hch, hcc⟩
      exact munge_space_agree s.data hsp c hcm
  have hgoal : ((wrapGo w (sumLen (splitChunks (munge s.data)) +
      (splitChunks (munge s.data)).length + 1) [] (splitChunks (munge s.data))).map
        words).flatten = words (munge s.data) := by
    rw [wrapGo_words w hw _ _ [] (Nat.lt_succ_self _) hcs, hf]
    simp
  exact hgoal

/-- Witness for the amended claim C4: at width 5 with the hyphen-free
    plain-space input (ab cd ef) whose words all fit, the wrapper
    preserves the word sequence. -/
theorem c4_wrap_preserves_words_witness :
    (1 ≤ 5 ∧ (∀ c ∈ ("ab cd ef" : String).data, ¬ c = '-') ∧
      (∀ c ∈ ("ab cd ef" : String).data, pyIsSpace c = true → isWsChar c = true) ∧
      (∀ u ∈ words (munge ("ab cd ef" : String).data), u.length ≤ 5)) ∧
    ((pyWrap 5 "ab cd ef").map (fun t => words t.data)).flatten =
      words (munge ("ab cd ef" : String).data) :=
  ⟨⟨by decide, by decide, by decide, by decide⟩,
   c4_wrap_preserves_words 5 "ab cd ef" (by decide) (by decide) (by decide) (by decide)⟩

end LangCheck
